import Mathlib

/-!
Verification of the pool/address bookkeeping engine of the default IPAM
driver (libnetwork/ipams/defaultipam/structures.go): capacity arithmetic on
a two-word 128-bit unsigned representation, PoolID serialization and
parsing, PoolData capacity/availability queries, and the sorted-prefix
merge iterator.

Machine integers are modelled as Nat with explicit reduction modulo 2^64 /
2^128 where overflow matters.  Address prefixes (Go net/netip.Prefix) are
modelled by the Pfx structure below, with the textual renderer and parser
of net/netip reproduced over lists of characters.
-/

/-- 2^64, the modulus of a Go uint64. -/
def U64 : Nat := 18446744073709551616

/-- 2^128, the modulus of the two-word wide representation. -/
def U128 : Nat := U64 * U64


/-- Go conversion of a signed int to uint64 (two's-complement wrap). -/
def goUint (x : Int) : Nat := (x % (U64 : Int)).toNat

/-- Go left shift on a uint64: a shift count of 64 or more yields 0. -/
def goShl64 (x n : Nat) : Nat := if 64 ≤ n then 0 else (x <<< n) % U64

/-- Go right shift on a uint64: a shift count of 64 or more yields 0. -/
def goShr64 (x n : Nat) : Nat := if 64 ≤ n then 0 else x >>> n

/-- Modelled from the spec: the two-word (high, low) unsigned 128-bit
representation used for capacity arithmetic (the vendored
lukechampine.com/uint128 package is not under src/).  `Lo` is the low
64-bit word, `Hi` the high one. -/
structure Uint128 where
  Lo : Nat
  Hi : Nat
deriving DecidableEq

/-- The value a two-word wide integer stands for. -/
def Uint128.toNat (u : Uint128) : Nat := u.Lo + U64 * u.Hi

/-- Modelled from the spec: `From64` injects a 64-bit value into the wide
representation. -/
def Uint128.From64 (v : Nat) : Uint128 := ⟨v % U64, 0⟩

/-- Modelled from the spec: `New(lo, hi)` builds the wide value lo + 2^64*hi
(low word first, as in the vendored package). -/
def Uint128.New (lo hi : Nat) : Uint128 := ⟨lo % U64, hi % U64⟩

/-- Modelled from the spec: three-way comparison of two wide values
(high word first, then low word). -/
def Uint128.Cmp (u v : Uint128) : Int :=
  if u = v then 0
  else if u.Hi < v.Hi ∨ (u.Hi = v.Hi ∧ u.Lo < v.Lo) then -1
  else 1

/-- Modelled from the spec: addition on the two-word representation.  The
result is reduced modulo 2^128; every sum arising in this development fits
in 128 bits, so the vendored package's overflow panic is never reached. -/
def Uint128.Add (u v : Uint128) : Uint128 :=
  ⟨(u.toNat + v.toNat) % U64, (u.toNat + v.toNat) / U64 % U64⟩

/-- Modelled from the spec: left shift of a wide value, word-wise exactly as
the two-word representation computes it (Go shift semantics per word). -/
def Uint128.Lsh (u : Uint128) (n : Nat) : Uint128 :=
  if 64 < n then ⟨0, goShl64 u.Lo (n - 64)⟩
  else ⟨goShl64 u.Lo n, goShl64 u.Hi n ||| goShr64 u.Lo (64 - n)⟩

/-- Model of net/netip.Addr without zones: invalid (the zero Addr), an IPv4
address (value below 2^32) or an IPv6 address (value below 2^128,
including 4-in-6 mapped addresses, which Go keeps in IPv6 form). -/
inductive Addr where
  | invalid
  | v4 (n : Nat)
  | v6 (n : Nat)
deriving DecidableEq

/-- net/netip.Addr.BitLen: 0 for the invalid address, 32 for IPv4, 128 for
IPv6. -/
def Addr.BitLen : Addr → Nat
  | .invalid => 0
  | .v4 _ => 32
  | .v6 _ => 128

/-- Model of net/netip.Prefix: the address and bits-plus-one (0 encodes an
invalid / unset bit count, exactly as netip stores it). -/
structure Pfx where
  addr : Addr
  bitsPlusOne : Nat
deriving DecidableEq

/-- The zero value netip.Prefix, used by Go as the "absent" sentinel. -/
def Pfx.zeroP : Pfx := ⟨.invalid, 0⟩

/-- net/netip.Prefix.Bits: the prefix length, -1 when invalid. -/
def Pfx.Bits (p : Pfx) : Int := (p.bitsPlusOne : Int) - 1

/-- Well-formedness of a prefix value as a Go netip.Prefix can hold it:
address in range, bit count present and no larger than the bit length. -/
def Pfx.validB (p : Pfx) : Bool :=
  (match p.addr with
   | .invalid => false
   | .v4 n => decide (n < 4294967296)
   | .v6 n => decide (n < 340282366920938463463374607431768211456)) &&
  decide (p.bitsPlusOne ≠ 0) && decide (p.bitsPlusOne ≤ Addr.BitLen p.addr + 1)

/-- subnetCapacity returns the number of IP addresses in the given subnet:
1 shifted left by the number of host bits, in the wide representation. -/
def subnetCapacity (subnet : Pfx) : Uint128 :=
  (Uint128.From64 1).Lsh (goUint ((Addr.BitLen subnet.addr : Int) - Pfx.Bits subnet))

/-- Modelled from the spec: the external per-subnet address-bitmap tracker
(libnetwork/internal/addrset, not under src/) reports the prefix it tracks
and the count of not-yet-selected addresses within it. -/
structure AddrSet where
  pool : Pfx
  unselected : Nat

/-- addrset.AddrSet.Pool: the tracked prefix. -/
def AddrSet.Pool (s : AddrSet) : Pfx := s.pool

/-- addrset.AddrSet.Unselected: addresses not yet selected. -/
def AddrSet.Unselected (s : AddrSet) : Nat := s.unselected

/-- Modelled from the spec: addrset.MaxUint64, the 64-bit maximum sentinel. -/
def MaxUint64 : Nat := U64 - 1

/-- PoolData contains the configured pool data: the backing address tracker,
the set of carved child subnets (as a list; addition over it is
commutative so the set's iteration order is immaterial), the cached wide
available range and the auto-release flag. -/
structure PoolData where
  addrs : AddrSet
  children : List Pfx
  availableRange : Uint128
  autoRelease : Bool

/-- PoolData.capacityRange: capacity of the tracked subnet when there are no
children, otherwise the wide sum of the children's capacities. -/
def PoolData.capacityRange (p : PoolData) : Uint128 :=
  if p.children = [] then subnetCapacity (AddrSet.Pool p.addrs)
  else p.children.foldl (fun acc c => acc.Add (subnetCapacity c)) ⟨0, 0⟩

/-- PoolData.AvailableAddrs: the tracker's unselected count, and the cached
available range narrowed to 64 bits — the code compares the cached value
against uint128.New(0, 1) = 2^64 with a strict greater-than and otherwise
returns the low word. -/
def PoolData.AvailableAddrs (p : PoolData) : Nat × Nat :=
  let availableSubnet := AddrSet.Unselected p.addrs
  let availableRange :=
    if 0 < p.availableRange.Cmp (Uint128.New 0 1) then MaxUint64
    else p.availableRange.Lo
  (availableSubnet, availableRange)

/-- 10.0.0.0 as an IPv4 address value. -/
def ip10000 : Nat := 167772160

/-- A pool whose cached available range is exactly 2^64 (Lo = 0, Hi = 1). -/
def poolAt2pow64 : PoolData := ⟨⟨⟨.v4 ip10000, 25⟩, 5⟩, [], ⟨0, 1⟩, false⟩

/-- A pool whose cached available range is 2^70 (Lo = 0, Hi = 2^6). -/
def poolAt2pow70 : PoolData := ⟨⟨⟨.v4 ip10000, 25⟩, 5⟩, [], ⟨0, 64⟩, false⟩

/-- mergeIter iterates on both 'a' and 'b' at the same time while maintaining
the total order that would arise if both were merged and then sorted; it
holds the two sequences, an index cursor into each, the comparison function
and the flag saying which side the current element comes from. -/
structure mergeIter where
  a : List Pfx
  b : List Pfx
  ia : Nat
  ib : Nat
  cmp : Pfx → Pfx → Int
  lastA : Bool

/-- mergeIter.nextA, with Go's short-circuit index guards rendered as a
match on the guarded lookups: true when a's next element exists and either
b is exhausted or a's next compares not-greater than b's next. -/
def mergeIter.nextA (it : mergeIter) : Bool :=
  match it.a[it.ia]?, it.b[it.ib]? with
  | some x, some y => decide (it.cmp x y ≤ 0)
  | some _, none => true
  | none, _ => false

/-- newMergeIter builds the iterator at both cursors 0 and initializes
lastA from nextA. -/
def newMergeIter (a b : List Pfx) (cmp : Pfx → Pfx → Int) : mergeIter :=
  let iter : mergeIter := ⟨a, b, 0, 0, cmp, false⟩
  { iter with lastA := iter.nextA }

/-- mergeIter.Get: the zero-value prefix once both sequences are exhausted,
otherwise the current element of the side lastA points at (the source
indexes the slice directly; the getD default is shown unreachable). -/
def mergeIter.Get (it : mergeIter) : Pfx :=
  if it.a.length + it.b.length ≤ it.ia + it.ib then Pfx.zeroP
  else if it.lastA then (it.a[it.ia]?).getD Pfx.zeroP
  else (it.b[it.ib]?).getD Pfx.zeroP

/-- mergeIter.Inc: advance the cursor of the side just emitted, then
recompute lastA. -/
def mergeIter.Inc (it : mergeIter) : mergeIter :=
  let it2 := if it.lastA then { it with ia := it.ia + 1 } else { it with ib := it.ib + 1 }
  { it2 with lastA := it2.nextA }

/-- advanceN applies Inc n times. -/
def advanceN (it : mergeIter) : Nat → mergeIter
  | 0 => it
  | n + 1 => advanceN it.Inc n

/-- walkN collects the next n elements of the walk (Get, then Inc). -/
def walkN (it : mergeIter) : Nat → List Pfx
  | 0 => []
  | n + 1 => it.Get :: walkN it.Inc n

/-- Reference merge of two lists under the iterator's tie-break: on a tie
(compare at most 0) the left list's element is emitted first. -/
def goMerge (cmp : Pfx → Pfx → Int) : List Pfx → List Pfx → List Pfx
  | [], ys => ys
  | x :: xs, [] => x :: xs
  | x :: xs, y :: ys =>
    if cmp x y ≤ 0 then x :: goMerge cmp xs (y :: ys) else y :: goMerge cmp (x :: xs) ys
termination_by xs ys => xs.length + ys.length

/-- An iterator state with consistent lastA: the shape every reachable state
has (newMergeIter produces it and Inc preserves it). -/
def mkIter (a b : List Pfx) (cmp : Pfx → Pfx → Int) (ia ib : Nat) : mergeIter :=
  ⟨a, b, ia, ib, cmp, mergeIter.nextA ⟨a, b, ia, ib, cmp, false⟩⟩

/-- Modelled from the spec: an address sort key realizing "ordering by base
address" (IPv4 before IPv6, then numeric value; the iterator is agnostic to
the exact rule). -/
def addrKeyN : Addr → Nat
  | .invalid => 0
  | .v4 n => 1 + n
  | .v6 n => 4294967298 + n

/-- Modelled from the spec: the expected three-way comparator over prefixes,
ordering by base address and then by prefix length. -/
def pfxCompare (p q : Pfx) : Int :=
  if addrKeyN p.addr < addrKeyN q.addr then -1
  else if addrKeyN q.addr < addrKeyN p.addr then 1
  else if p.bitsPlusOne < q.bitsPlusOne then -1
  else if q.bitsPlusOne < p.bitsPlusOne then 1
  else 0

/-- 10.0.0.0/24 in the prefix model. -/
def pfxA : Pfx := ⟨.v4 167772160, 25⟩

/-- 10.0.1.0/24 in the prefix model. -/
def pfxB : Pfx := ⟨.v4 167772416, 25⟩

/-- 10.0.2.0/24 in the prefix model. -/
def pfxC : Pfx := ⟨.v4 167772672, 25⟩

/-- Strings are modelled as lists of characters. -/
abbrev Str := List Char

/-- The character '.' (code 46). -/
def dotC : Char := Char.ofNat 46

/-- The character ':' (code 58). -/
def colonC : Char := Char.ofNat 58

/-- The character '/' (code 47). -/
def slashC : Char := Char.ofNat 47

/-- The character '%' (code 37). -/
def percentC : Char := Char.ofNat 37

/-- ASCII decimal digit test, as Go compares bytes against '0' and '9'. -/
def isDigitC (c : Char) : Bool := decide (48 ≤ c.toNat) && decide (c.toNat ≤ 57)

/-- ASCII hex digit test ('0'-'9', 'a'-'f', 'A'-'F'), as Go's parseIPv6. -/
def isHexDigitC (c : Char) : Bool :=
  isDigitC c || (decide (97 ≤ c.toNat) && decide (c.toNat ≤ 102)) ||
    (decide (65 ≤ c.toNat) && decide (c.toNat ≤ 70))

/-- Value of a (hex or decimal) digit character. -/
def digitVal (c : Char) : Nat :=
  if 97 ≤ c.toNat then c.toNat - 87 else if 65 ≤ c.toNat then c.toNat - 55 else c.toNat - 48

/-- Decimal rendering, highest digit first, no leading zeros (fueled so that
the definition is structural and hence computable by the kernel). -/
def decDigitsF : Nat → Nat → Str
  | 0, _ => []
  | fuel + 1, n =>
    if n < 10 then [Char.ofNat (48 + n)]
    else decDigitsF fuel (n / 10) ++ [Char.ofNat (48 + n % 10)]

/-- Decimal rendering of a natural number, as Go's appendDec/itoa. -/
def decDigits (n : Nat) : Str := decDigitsF (n + 1) n

/-- A single lowercase hex digit character. -/
def hexChar (n : Nat) : Char := if n < 10 then Char.ofNat (48 + n) else Char.ofNat (87 + n)

/-- Lowercase hex rendering, no leading zeros (fueled, structural). -/
def hexDigitsF : Nat → Nat → Str
  | 0, _ => []
  | fuel + 1, n =>
    if n < 16 then [hexChar n]
    else hexDigitsF fuel (n / 16) ++ [hexChar (n % 16)]

/-- Lowercase hex rendering of a natural number, as Go's appendHex. -/
def hexDigits (n : Nat) : Str := hexDigitsF (n + 1) n

/-- Go appendTo4: the dotted-decimal rendering of an IPv4 value. -/
def string4 (n : Nat) : Str :=
  decDigits (n / 16777216 % 256) ++ dotC ::
    (decDigits (n / 65536 % 256) ++ dotC ::
      (decDigits (n / 256 % 256) ++ dotC :: decDigits (n % 256)))

/-- The eight 16-bit groups of an IPv6 value, highest first. -/
def v6groups (n : Nat) : List Nat :=
  [n / 5192296858534827628530496329220096 % 65536, n / 79228162514264337593543950336 % 65536,
   n / 1208925819614629174706176 % 65536, n / 18446744073709551616 % 65536,
   n / 281474976710656 % 65536, n / 4294967296 % 65536, n / 65536 % 65536, n % 65536]

/-- Length of the zero run at the head of a group list. -/
def zrFrom : List Nat → Nat
  | [] => 0
  | g :: gs => if g = 0 then zrFrom gs + 1 else 0

/-- Go appendTo6's first loop: scan every start position, keeping the
leftmost zero run of maximal length at least 2 (as (start, end)). -/
def bzr : List Nat → Nat → Option (Nat × Nat) → Option (Nat × Nat)
  | [], _, best => best
  | g :: gs, i, best =>
    let r := zrFrom (g :: gs)
    let cur := match best with | none => 0 | some (bs, be) => be - bs
    bzr gs (i + 1) (if 2 ≤ r ∧ cur < r then some (i, i + r) else best)

/-- The zero run Go's appendTo6 elides with "::", when one exists. -/
def bestZeroRun (gs : List Nat) : Option (Nat × Nat) := bzr gs 0 none

/-- Hex groups joined by ':' separators. -/
def joinG : List Nat → Str
  | [] => []
  | [g] => hexDigits g
  | g :: gs => hexDigits g ++ colonC :: joinG gs

/-- Go appendTo6: RFC 5952 rendering — groups joined by ':' with the best
zero run of length at least 2 compressed to "::". -/
def string6 (n : Nat) : Str :=
  match bestZeroRun (v6groups n) with
  | none => joinG (v6groups n)
  | some (s, e) =>
    joinG ((v6groups n).take s) ++ colonC :: colonC :: joinG ((v6groups n).drop e)

/-- Go net/netip Addr.String (zone-free): "invalid IP" for the zero Addr,
dotted decimal for IPv4, "::ffff:" + dotted decimal for 4-in-6 mapped
addresses, RFC 5952 text otherwise. -/
def Addr.toStr : Addr → Str
  | .invalid => ("invalid IP").toList
  | .v4 n => string4 n
  | .v6 n =>
    if n / 4294967296 = 65535 then ("::ffff:").toList ++ string4 (n % 4294967296)
    else string6 n

/-- Go net/netip parseIPv4's scanning loop: val/digLen accumulate the octet
being read, pos counts completed octets, fields holds them.  The index
tests of the Go loop (i == 0, s[i-1] == '.', i == len(s)-1) are expressed
through digLen and the remaining list. -/
def p4loop : Str → Nat → Nat → Nat → List Nat → Except Unit Addr
  | [], val, _, pos, fields =>
    if pos < 3 then .error ()
    else .ok (.v4 ((fields ++ [val]).foldl (fun acc d => acc * 256 + d) 0))
  | c :: rest, val, digLen, pos, fields =>
    if isDigitC c then
      if digLen = 1 ∧ val = 0 then .error ()
      else
        if 255 < val * 10 + (c.toNat - 48) then .error ()
        else p4loop rest (val * 10 + (c.toNat - 48)) (digLen + 1) pos fields
    else if c = dotC then
      if digLen = 0 ∨ rest = [] then .error ()
      else if pos = 3 then .error ()
      else p4loop rest 0 0 (pos + 1) (fields ++ [val])
    else .error ()

/-- Go net/netip parseIPv4. -/
def parseIPv4 (s : Str) : Except Unit Addr := p4loop s 0 0 0 []

/-- Go parseIPv6's inner hex-field scan: accumulate up to 4 hex digits
(erroring on a fifth), returning the value, the digit count and the rest.
(Go additionally checks acc > 0xffff, which can never fire on its own when
the accumulator starts at 0.) -/
def hexFieldLoop : Str → Nat → Nat → Except Unit (Nat × Nat × Str)
  | [], acc, off => .ok (acc, off, [])
  | c :: rest, acc, off =>
    if isHexDigitC c then
      if 3 < off then .error ()
      else hexFieldLoop rest (acc * 16 + digitVal c) (off + 1)
    else .ok (acc, off, c :: rest)

/-- Go parseIPv6's post-loop code: expand the "::" ellipsis with zeros when
fewer than 8 groups were read (erroring when there is no ellipsis), and
reject an ellipsis that expands to nothing. -/
def p6finish (acc : List Nat) (ell : Option Nat) : Except Unit (List Nat) :=
  if acc.length < 8 then
    match ell with
    | none => .error ()
    | some k => .ok (acc.take k ++ List.replicate (8 - acc.length) 0 ++ acc.drop k)
  else
    match ell with
    | some _ => .error ()
    | none => .ok acc

/-- Go parseIPv6's main loop over colon-separated fields, with the embedded
IPv4 tail and "::" handling; acc holds the 16-bit groups read so far and
ell the group index of the ellipsis.  The fuel only bounds the recursion
(each iteration consumes at least one group; 9 always suffices). -/
def p6loop : Nat → Str → List Nat → Option Nat → Except Unit (List Nat)
  | 0, _, _, _ => .error ()
  | fuel + 1, s, acc, ell =>
    if 8 ≤ acc.length then
      if s = [] then p6finish acc ell else .error ()
    else
      match hexFieldLoop s 0 0 with
      | .error _ => .error ()
      | .ok (val, off, rest) =>
        if off = 0 then .error ()
        else if rest.head? = some dotC then
          if ell = none ∧ acc.length ≠ 6 then .error ()
          else if 8 < acc.length + 2 then .error ()
          else
            match parseIPv4 s with
            | .error _ => .error ()
            | .ok (.v4 m) => p6finish (acc ++ [m / 65536, m % 65536]) ell
            | .ok _ => .error ()
        else
          match rest with
          | [] => p6finish (acc ++ [val]) ell
          | c :: rest2 =>
            if c ≠ colonC then .error ()
            else
              match rest2 with
              | [] => .error ()
              | c2 :: rest3 =>
                if c2 = colonC then
                  if ell.isSome then .error ()
                  else if rest3 = [] then p6finish (acc ++ [val]) (some (acc ++ [val]).length)
                  else p6loop fuel rest3 (acc ++ [val]) (some (acc ++ [val]).length)
                else p6loop fuel rest2 (acc ++ [val]) ell

/-- The IPv6 value of eight 16-bit groups, highest first. -/
def groupsToNat (gs : List Nat) : Nat := gs.foldl (fun acc g => acc * 65536 + g) 0

/-- Go net/netip parseIPv6 (zones rejected, as ParsePrefix requires): handle
a leading "::", then run the field loop. -/
def parseIPv6 (s : Str) : Except Unit Addr :=
  match s with
  | c1 :: c2 :: rest =>
    if c1 = colonC ∧ c2 = colonC then
      if rest = [] then .ok (.v6 0)
      else (p6loop 9 rest [] (some 0)).map fun gs => .v6 (groupsToNat gs)
    else (p6loop 9 s [] none).map fun gs => .v6 (groupsToNat gs)
  | _ => (p6loop 9 s [] none).map fun gs => .v6 (groupsToNat gs)

/-- Go net/netip ParseAddr's dispatch: scan for the first '.', ':' or '%'
and hand the string to the IPv4 or IPv6 parser ('%' or no special
character at all is an error). -/
def firstSpecial : Str → Option Char
  | [] => none
  | c :: r => if c = dotC ∨ c = colonC ∨ c = percentC then some c else firstSpecial r

/-- Go net/netip ParseAddr (zone-free). -/
def ParseAddr (s : Str) : Except Unit Addr :=
  match firstSpecial s with
  | some c => if c = dotC then parseIPv4 s else if c = colonC then parseIPv6 s else .error ()
  | none => .error ()

/-- All characters are decimal digits. -/
def allDigits (s : Str) : Bool := s.all isDigitC

/-- The value of a decimal digit string. -/
def digitsVal (s : Str) : Nat := s.foldl (fun acc c => acc * 10 + (c.toNat - 48)) 0

/-- Go strconv.Atoi: optional sign then at least one decimal digit.  (Go
errors on values out of int range; every such string is rejected by
ParsePrefix's bits range check just the same, so the model returns the
unbounded value.) -/
def goAtoi (s : Str) : Except Unit Int :=
  match s with
  | [] => .error ()
  | c :: rest =>
    if c = Char.ofNat 43 then
      if rest = [] ∨ ¬ allDigits rest then .error () else .ok (digitsVal rest)
    else if c = Char.ofNat 45 then
      if rest = [] ∨ ¬ allDigits rest then .error () else .ok (-(digitsVal rest : Int))
    else if allDigits s then .ok (digitsVal s) else .error ()

/-- Split a string at its last '/' (Go's stringsLastIndexByte in
ParsePrefix); none when the string holds no '/'. -/
def lastSlashSplit (s : Str) : Option (Str × Str) :=
  let post := (s.reverse.takeWhile fun c => c ≠ slashC).reverse
  if post.length = s.length then none
  else some (s.take (s.length - post.length - 1), post)

/-- Go net/netip PrefixFrom: bits+1 is stored only for a valid address and
an in-range bit count, else 0. -/
def PrefixFrom (ip : Addr) (bits : Int) : Pfx :=
  if ip ≠ Addr.invalid ∧ 0 ≤ bits ∧ bits ≤ (Addr.BitLen ip : Int) then ⟨ip, bits.toNat + 1⟩
  else ⟨ip, 0⟩

/-- Go net/netip ParsePrefix: split at the last '/', parse the address part
and the decimal bit count, and range-check the bits against the address
family. -/
def ParsePrefix (s : Str) : Except Unit Pfx :=
  match lastSlashSplit s with
  | none => .error ()
  | some (addrPart, bitsPart) =>
    match ParseAddr addrPart with
    | .error _ => .error ()
    | .ok ip =>
      match goAtoi bitsPart with
      | .error _ => .error ()
      | .ok bits =>
        let maxBits : Int := match ip with | .v6 _ => 128 | _ => 32
        if bits < 0 ∨ maxBits < bits then .error ()
        else .ok (PrefixFrom ip bits)

/-- Go net/netip Prefix.String: "invalid Prefix" when no bit count is
stored, else the address text, '/', and the decimal bit count. -/
def Pfx.toStr (p : Pfx) : Str :=
  if p.bitsPlusOne = 0 then ("invalid Prefix").toList
  else Addr.toStr p.addr ++ slashC :: decDigits (p.bitsPlusOne - 1)

/-- Go strings.Split for a one-character separator. -/
def goSplit (sep : Char) : Str → List Str
  | [] => [[]]
  | c :: rest =>
    match goSplit sep rest with
    | [] => [[c]]
    | g :: gs => if c = sep then [] :: g :: gs else (c :: g) :: gs

/-- The error kind of types.InvalidParameterErrorf, the only error
PoolIDFromString raises. -/
inductive GoErr where
  | invalidParameter
deriving DecidableEq

/-- PoolID is the pointer to the configured pools in each address space: the
address-space name and the SubnetKey (Subnet, ChildSubnet) inlined. -/
structure PoolID where
  AddressSpace : Str
  Subnet : Pfx
  ChildSubnet : Pfx
deriving DecidableEq

/-- PoolIDFromString creates a new PoolID reading it from the given string:
reject the empty string; split on '/'; require 3 or 5 segments; rebuild the
subnet from segments 1 and 2 and, with 5 segments, the child subnet from
segments 3 and 4. -/
def PoolIDFromString (str : Str) : Except GoErr PoolID :=
  if str = [] then .error .invalidParameter
  else
    let p := goSplit slashC str
    if p.length ≠ 3 ∧ p.length ≠ 5 then .error .invalidParameter
    else
      match ParsePrefix (p.getD 1 [] ++ slashC :: p.getD 2 []) with
      | .error _ => .error .invalidParameter
      | .ok subnet =>
        if p.length = 5 then
          match ParsePrefix (p.getD 3 [] ++ slashC :: p.getD 4 []) with
          | .error _ => .error .invalidParameter
          | .ok child => .ok ⟨p.getD 0 [], subnet, child⟩
        else .ok ⟨p.getD 0 [], subnet, Pfx.zeroP⟩

/-- PoolID.String: space/subnet, with /child appended when the child subnet
is not the zero-value prefix. -/
def PoolID.String (s : PoolID) : Str :=
  if s.ChildSubnet = Pfx.zeroP then s.AddressSpace ++ slashC :: Pfx.toStr s.Subnet
  else s.AddressSpace ++ slashC :: Pfx.toStr s.Subnet ++ slashC :: Pfx.toStr s.ChildSubnet

deriving instance DecidableEq for Except

/-- The continuation p6loop runs after storing a group: identical to the
post-field code of the loop body, taken out as a definition so the walk over
a rendered group list can be stated one group at a time. -/
def afterGroups (fuel : Nat) (suffix : Str) (acc : List Nat) (ell : Option Nat) :
    Except Unit (List Nat) :=
  match suffix with
  | [] => p6finish acc ell
  | c :: rest2 =>
    if c ≠ colonC then .error ()
    else
      match rest2 with
      | [] => .error ()
      | c2 :: rest3 =>
        if c2 = colonC then
          if ell.isSome then .error ()
          else if rest3 = [] then p6finish acc (some acc.length)
          else p6loop fuel rest3 acc (some acc.length)
        else p6loop fuel rest2 acc ell

theorem U64_eq : U64 = 2 ^ 64 := by norm_num [U64]

theorem U64_pos : 0 < U64 := by norm_num [U64]

/-- C1: the claim says a cached available range exceeding 2^64 - 1 is always
reported as the saturated 64-bit maximum, never a wrapped or truncated
number.  The code compares against uint128.New(0, 1) = 2^64 strictly, so at
the boundary value 2^64 it returns the low word 0 instead: the true value
exceeds the 64-bit maximum yet AvailableAddrs reports 0.  (At 2^70 the
saturating branch is taken, as the claim's example expects.) -/
theorem claim_C1_availableAddrs_boundary_bug :
    MaxUint64 < (poolAt2pow64.availableRange).toNat ∧
    (PoolData.AvailableAddrs poolAt2pow64).2 = 0 ∧
    (0 : Nat) ≠ MaxUint64 ∧
    (PoolData.AvailableAddrs poolAt2pow70).2 = MaxUint64 := by
  refine ⟨?_, ?_, ?_, ?_⟩ <;> decide

theorem mod_mul_decomp (x a b : Nat) : x % (a * b) = x % a + a * (x / a % b) := by
  rcases Nat.eq_zero_or_pos a with ha | ha
  · subst ha; simp
  · conv_lhs => rw [← Nat.div_add_mod (x % (a * b)) a]
    rw [Nat.mod_mul_right_div_self, Nat.mod_mod_of_dvd _ ⟨b, rfl⟩]
    omega

theorem goShl64_lt (x n : Nat) : goShl64 x n < U64 := by
  unfold goShl64
  split
  · exact U64_pos
  · exact Nat.mod_lt _ U64_pos

theorem Lsh_one_toNat (n : Nat) (h : n ≤ 127) :
    ((Uint128.From64 1).Lsh n).toNat = 2 ^ n := by
  have h1 : (1 : Nat) % U64 = 1 := by norm_num [U64]
  unfold Uint128.Lsh Uint128.From64
  split
  · rename_i h64
    have hn : ¬ 64 ≤ n - 64 := by omega
    have hlt : 2 ^ (n - 64) < U64 := by
      rw [U64_eq]
      exact Nat.pow_lt_pow_right (by norm_num) (by omega)
    simp only [Uint128.toNat, h1, goShl64, if_neg hn, Nat.shiftLeft_eq, one_mul,
      Nat.mod_eq_of_lt hlt, Nat.zero_add]
    have he : 64 + (n - 64) = n := by omega
    rw [U64_eq, ← pow_add, he]
  · rename_i h64
    rcases Nat.lt_or_ge n 64 with hn | hn
    · have hlt : 2 ^ n < U64 := by
        rw [U64_eq]
        exact Nat.pow_lt_pow_right (by norm_num) hn
      have hr : goShr64 1 (64 - n) = 0 := by
        unfold goShr64
        split
        · rfl
        · rename_i hc
          rw [Nat.shiftRight_eq_div_pow]
          exact Nat.div_eq_of_lt (Nat.one_lt_two_pow_iff.mpr (by omega))
      simp only [Uint128.toNat, h1, goShl64, if_neg (by omega : ¬ 64 ≤ n),
        Nat.shiftLeft_eq, one_mul, Nat.zero_mul, Nat.mod_eq_of_lt hlt, hr]
      have hz : (0 * 2 ^ n) % U64 = 0 := by simp
      simp [hz]
    · have hn64 : n = 64 := by omega
      subst hn64
      have hr : goShr64 1 (64 - 64) = 1 := by norm_num [goShr64]
      have hl : goShl64 1 64 = 0 := by norm_num [goShl64]
      have hl0 : goShl64 0 64 = 0 := by norm_num [goShl64]
      simp only [Uint128.toNat, h1, hl, hl0, hr]
      norm_num [U64_eq]

theorem goUint_hostBits (p : Pfx) (h1 : p.bitsPlusOne ≠ 0)
    (h2 : p.bitsPlusOne ≤ Addr.BitLen p.addr + 1) :
    goUint ((Addr.BitLen p.addr : Int) - Pfx.Bits p) =
      Addr.BitLen p.addr - (p.bitsPlusOne - 1) := by
  have hB : Addr.BitLen p.addr ≤ 128 := by
    cases p.addr <;> simp [Addr.BitLen]
  unfold goUint Pfx.Bits
  have : ((Addr.BitLen p.addr : Int) - ((p.bitsPlusOne : Int) - 1)) % (U64 : Int) =
      ((Addr.BitLen p.addr - (p.bitsPlusOne - 1) : Nat) : Int) := by
    rw [Int.emod_eq_of_lt] <;> [skip; omega; skip]
    · omega
    · have : (U64 : Int) = 18446744073709551616 := by norm_num [U64]
      omega
  rw [this]
  omega

/-- C3 (amended): subnetCapacity equals 2^(addressBitLength − prefixBits) for
every well-formed prefix whose host-bit count is at most 127; the concrete
values for 10.0.0.0/24, 10.0.0.0/32 and ::1/128 hold, but for ::/0 the
128-bit result wraps and the function returns 0, not 2^128. -/
theorem claim_C3_subnetCapacity_pow :
    (∀ p : Pfx, p.bitsPlusOne ≠ 0 → p.bitsPlusOne ≤ Addr.BitLen p.addr + 1 →
      Addr.BitLen p.addr - (p.bitsPlusOne - 1) ≤ 127 →
      (subnetCapacity p).toNat = 2 ^ (Addr.BitLen p.addr - (p.bitsPlusOne - 1))) ∧
    (subnetCapacity ⟨.v4 ip10000, 25⟩).toNat = 256 ∧
    (subnetCapacity ⟨.v4 ip10000, 33⟩).toNat = 1 ∧
    (subnetCapacity ⟨.v6 1, 129⟩).toNat = 1 ∧
    (subnetCapacity ⟨.v6 0, 1⟩).toNat = 0 := by
  refine ⟨fun p h1 h2 h3 => ?_, by decide, by decide, by decide, by decide⟩
  unfold subnetCapacity
  rw [goUint_hostBits p h1 h2]
  exact Lsh_one_toNat _ h3

/-- C3 counterexample: the claim asserts subnetCapacity(::/0) == 2^128, but
the code computes 1 << 128 in 128-bit arithmetic, which is 0. -/
theorem claim_C3_counterexample_full_v6 :
    (subnetCapacity ⟨.v6 0, 1⟩).toNat = 0 ∧ (subnetCapacity ⟨.v6 0, 1⟩).toNat ≠ 2 ^ 128 := by
  constructor
  · decide
  · intro h
    have : (subnetCapacity ⟨.v6 0, 1⟩).toNat = 0 := by decide
    rw [this] at h
    exact absurd h.symm (by positivity)

theorem Uint128.toNat_Add (u v : Uint128) :
    (u.Add v).toNat = (u.toNat + v.toNat) % U128 := by
  unfold Uint128.Add Uint128.toNat U128
  rw [mod_mul_decomp]

theorem U128_pos : 0 < U128 := by norm_num [U128, U64]

theorem foldl_Add_toNat (l : List Pfx) (acc : Uint128) (hacc : acc.toNat < U128) :
    (l.foldl (fun a c => a.Add (subnetCapacity c)) acc).toNat =
      (acc.toNat + (l.map fun c => (subnetCapacity c).toNat).sum) % U128 := by
  induction l generalizing acc with
  | nil => simpa using (Nat.mod_eq_of_lt hacc).symm
  | cons c l ih =>
    simp only [List.foldl_cons, List.map_cons, List.sum_cons]
    rw [ih (acc.Add (subnetCapacity c)) (by rw [Uint128.toNat_Add]; exact Nat.mod_lt _ U128_pos)]
    rw [Uint128.toNat_Add, Nat.mod_add_mod]
    congr 1
    omega

/-- C5: capacityRange returns the capacity of the pool's own tracked subnet
when the pool has no children, and otherwise the wide (128-bit) sum of
subnetCapacity over every child prefix; with children 10.0.0.0/25 and
10.0.1.0/25 it returns 256. -/
theorem claim_C5_capacityRange :
    (∀ p : PoolData,
      (p.children = [] → p.capacityRange = subnetCapacity (AddrSet.Pool p.addrs)) ∧
      (p.children ≠ [] → (p.capacityRange).toNat =
        ((p.children.map fun c => (subnetCapacity c).toNat).sum) % U128)) ∧
    (PoolData.capacityRange
      ⟨⟨⟨.v4 ip10000, 25⟩, 0⟩, [⟨.v4 ip10000, 26⟩, ⟨.v4 167772416, 26⟩], ⟨0, 0⟩, false⟩).toNat
      = 256 := by
  refine ⟨fun p => ⟨fun h => ?_, fun h => ?_⟩, by decide⟩
  · simp [PoolData.capacityRange, h]
  · unfold PoolData.capacityRange
    rw [if_neg h]
    have h0 : (Uint128.mk 0 0).toNat < U128 := by
      simp [Uint128.toNat]
      exact U128_pos
    rw [foldl_Add_toNat _ _ h0]
    simp [Uint128.toNat]


theorem newMergeIter_eq_mkIter (a b : List Pfx) (cmp : Pfx → Pfx → Int) :
    newMergeIter a b cmp = mkIter a b cmp 0 0 := rfl

theorem Inc_mkIter (a b : List Pfx) (cmp : Pfx → Pfx → Int) (ia ib : Nat) :
    (mkIter a b cmp ia ib).Inc =
      if mergeIter.nextA ⟨a, b, ia, ib, cmp, false⟩ = true then mkIter a b cmp (ia + 1) ib
      else mkIter a b cmp ia (ib + 1) := by
  show mergeIter.Inc ⟨a, b, ia, ib, cmp, mergeIter.nextA ⟨a, b, ia, ib, cmp, false⟩⟩ = _
  cases h : mergeIter.nextA ⟨a, b, ia, ib, cmp, false⟩ with
  | false => rw [if_neg (by simp)]; rfl
  | true => rw [if_pos rfl]; rfl

theorem mkIter_lastA (a b : List Pfx) (cmp : Pfx → Pfx → Int) (ia ib : Nat) :
    (mkIter a b cmp ia ib).lastA = mergeIter.nextA ⟨a, b, ia, ib, cmp, false⟩ := rfl

theorem nextA_eval (a b : List Pfx) (cmp : Pfx → Pfx → Int) (ia ib : Nat) (l : Bool) :
    mergeIter.nextA ⟨a, b, ia, ib, cmp, l⟩ =
      match a[ia]?, b[ib]? with
      | some x, some y => decide (cmp x y ≤ 0)
      | some _, none => true
      | none, _ => false := rfl

theorem goMerge_nil_left (cmp : Pfx → Pfx → Int) (ys : List Pfx) :
    goMerge cmp [] ys = ys := by
  simp [goMerge]

theorem goMerge_nil_right (cmp : Pfx → Pfx → Int) (xs : List Pfx) :
    goMerge cmp xs [] = xs := by
  cases xs <;> simp [goMerge]

theorem goMerge_cons_cons (cmp : Pfx → Pfx → Int) (x y : Pfx) (xs ys : List Pfx) :
    goMerge cmp (x :: xs) (y :: ys) =
      if cmp x y ≤ 0 then x :: goMerge cmp xs (y :: ys) else y :: goMerge cmp (x :: xs) ys := by
  simp [goMerge]

theorem drop_succ_of_drop_cons {α : Type} {l : List α} {n : Nat} {x : α} {xs : List α}
    (h : l.drop n = x :: xs) : l.drop (n + 1) = xs := by
  have h1 : List.drop 1 (List.drop n l) = List.drop (n + 1) l := by
    rw [List.drop_drop]
  rw [← h1, h]
  rfl

theorem getElem?_of_drop_cons {α : Type} {l : List α} {n : Nat} {x : α} {xs : List α}
    (h : l.drop n = x :: xs) : l[n]? = some x := by
  rw [← List.head?_drop, h]
  rfl

theorem len_sub_of_drop_cons {α : Type} {l : List α} {n : Nat} {x : α} {xs : List α}
    (h : l.drop n = x :: xs) : l.length - n = xs.length + 1 := by
  have := congrArg List.length h
  simpa using this

/-- Simulation: from any consistent state, walking the remaining positions
produces exactly the reference merge of the two remaining suffixes. -/
theorem walkN_mkIter : ∀ (n : Nat) (a b : List Pfx) (cmp : Pfx → Pfx → Int) (ia ib : Nat),
    ia ≤ a.length → ib ≤ b.length → n = (a.length - ia) + (b.length - ib) →
    walkN (mkIter a b cmp ia ib) n = goMerge cmp (a.drop ia) (b.drop ib) := by
  intro n
  induction n with
  | zero =>
    intro a b cmp ia ib hia hib hn
    have h1 : a.length ≤ ia := by omega
    have h2 : b.length ≤ ib := by omega
    rw [List.drop_eq_nil_iff.mpr h1, List.drop_eq_nil_iff.mpr h2]
    simp [walkN, goMerge]
  | succ n ih =>
    intro a b cmp ia ib hia hib hn
    rcases hda : a.drop ia with _ | ⟨x, xs⟩ <;> rcases hdb : b.drop ib with _ | ⟨y, ys⟩
    · have h1 := List.drop_eq_nil_iff.mp hda
      have h2 := List.drop_eq_nil_iff.mp hdb
      omega
    · have h1 := List.drop_eq_nil_iff.mp hda
      have hgb := getElem?_of_drop_cons hdb
      have hga : a[ia]? = none := by
        rw [List.getElem?_eq_none_iff]
        omega
      have hlb := len_sub_of_drop_cons hdb
      have hne : ¬ (a.length + b.length ≤ ia + ib) := by omega
      have hnA : mergeIter.nextA ⟨a, b, ia, ib, cmp, false⟩ = false := by
        rw [nextA_eval, hga]
      have hget : mergeIter.Get (mkIter a b cmp ia ib) = y := by
        rw [mergeIter.Get]
        simp only [mkIter, hnA]
        rw [if_neg hne]
        simp [hgb]
      have hinc : (mkIter a b cmp ia ib).Inc = mkIter a b cmp ia (ib + 1) := by
        rw [Inc_mkIter, if_neg]
        simp [hnA]
      rw [walkN, hget, hinc, ih a b cmp ia (ib + 1) hia (by omega) (by omega)]
      rw [List.drop_eq_nil_iff.mpr h1, drop_succ_of_drop_cons hdb]
      rw [goMerge_nil_left, goMerge_nil_left]
    · have h2 := List.drop_eq_nil_iff.mp hdb
      have hga := getElem?_of_drop_cons hda
      have hgb : b[ib]? = none := by
        rw [List.getElem?_eq_none_iff]
        omega
      have hla := len_sub_of_drop_cons hda
      have hne : ¬ (a.length + b.length ≤ ia + ib) := by omega
      have hnA : mergeIter.nextA ⟨a, b, ia, ib, cmp, false⟩ = true := by
        rw [nextA_eval, hga, hgb]
      have hget : mergeIter.Get (mkIter a b cmp ia ib) = x := by
        rw [mergeIter.Get]
        simp only [mkIter, hnA]
        rw [if_neg hne]
        simp [hga]
      have hinc : (mkIter a b cmp ia ib).Inc = mkIter a b cmp (ia + 1) ib := by
        rw [Inc_mkIter, if_pos hnA]
      rw [walkN, hget, hinc, ih a b cmp (ia + 1) ib (by omega) hib (by omega)]
      rw [List.drop_eq_nil_iff.mpr h2, drop_succ_of_drop_cons hda]
      rw [goMerge_nil_right, goMerge_nil_right]
    · have hga := getElem?_of_drop_cons hda
      have hgb := getElem?_of_drop_cons hdb
      have hla := len_sub_of_drop_cons hda
      have hlb := len_sub_of_drop_cons hdb
      have hne : ¬ (a.length + b.length ≤ ia + ib) := by omega
      by_cases hc : cmp x y ≤ 0
      · have hnA : mergeIter.nextA ⟨a, b, ia, ib, cmp, false⟩ = true := by
          rw [nextA_eval, hga, hgb]
          simp [hc]
        have hget : mergeIter.Get (mkIter a b cmp ia ib) = x := by
          rw [mergeIter.Get]
          simp only [mkIter, hnA]
          rw [if_neg hne]
          simp [hga]
        have hinc : (mkIter a b cmp ia ib).Inc = mkIter a b cmp (ia + 1) ib := by
          rw [Inc_mkIter, if_pos hnA]
        rw [walkN, hget, hinc, ih a b cmp (ia + 1) ib (by omega) hib (by omega)]
        rw [hdb, drop_succ_of_drop_cons hda, goMerge_cons_cons, if_pos hc]
      · have hnA : mergeIter.nextA ⟨a, b, ia, ib, cmp, false⟩ = false := by
          rw [nextA_eval, hga, hgb]
          simp [hc]
        have hget : mergeIter.Get (mkIter a b cmp ia ib) = y := by
          rw [mergeIter.Get]
          simp only [mkIter, hnA]
          rw [if_neg hne]
          simp [hgb]
        have hinc : (mkIter a b cmp ia ib).Inc = mkIter a b cmp ia (ib + 1) := by
          rw [Inc_mkIter, if_neg]
          simp [hnA]
        rw [walkN, hget, hinc, ih a b cmp ia (ib + 1) hia (by omega) (by omega)]
        rw [hda, drop_succ_of_drop_cons hdb, goMerge_cons_cons, if_neg hc]

theorem walk_eq_goMerge (a b : List Pfx) (cmp : Pfx → Pfx → Int) :
    walkN (newMergeIter a b cmp) (a.length + b.length) = goMerge cmp a b := by
  rw [newMergeIter_eq_mkIter]
  have h := walkN_mkIter (a.length + b.length) a b cmp 0 0 (by omega) (by omega) (by omega)
  simpa using h

theorem goMerge_perm (cmp : Pfx → Pfx → Int) : ∀ (a b : List Pfx), (goMerge cmp a b).Perm (a ++ b)
  | [], ys => by
    rw [goMerge_nil_left]
    exact List.Perm.refl _
  | x :: xs, [] => by
    rw [goMerge_nil_right]
    simp
  | x :: xs, y :: ys => by
    rw [goMerge_cons_cons]
    by_cases hc : cmp x y ≤ 0
    · rw [if_pos hc]
      exact (goMerge_perm cmp xs (y :: ys)).cons x
    · rw [if_neg hc]
      exact ((goMerge_perm cmp (x :: xs) ys).cons y).trans List.perm_middle.symm
termination_by a b => a.length + b.length

theorem lt_of_getElem?_some {α : Type} {l : List α} {n : Nat} {x : α} (h : l[n]? = some x) :
    n < l.length := by
  by_contra hc
  rw [List.getElem?_eq_none_iff.mpr (by omega)] at h
  simp at h

theorem mem_of_getElem?_some {α : Type} {l : List α} {n : Nat} {x : α} (h : l[n]? = some x) :
    x ∈ l := by
  have h2 : l.get? n = some x := by
    rw [List.get?_eq_getElem?]
    exact h
  exact List.get?_mem h2

theorem nextA_true_lt {a b : List Pfx} {cmp : Pfx → Pfx → Int} {ia ib : Nat} {l : Bool}
    (h : mergeIter.nextA ⟨a, b, ia, ib, cmp, l⟩ = true) : ia < a.length := by
  rw [nextA_eval] at h
  rcases hga : a[ia]? with _ | x
  · rw [hga] at h
    simp at h
  · exact lt_of_getElem?_some hga

theorem nextA_false_cases {a b : List Pfx} {cmp : Pfx → Pfx → Int} {ia ib : Nat} {l : Bool}
    (h : mergeIter.nextA ⟨a, b, ia, ib, cmp, l⟩ = false) :
    a.length + b.length ≤ ia + ib ∨ ib < b.length := by
  rw [nextA_eval] at h
  rcases hga : a[ia]? with _ | x <;> rw [hga] at h
  · rcases hgb : b[ib]? with _ | y <;> rw [hgb] at h
    · have h1 := List.getElem?_eq_none_iff.mp hga
      have h2 := List.getElem?_eq_none_iff.mp hgb
      left
      omega
    · right
      exact lt_of_getElem?_some hgb
  · rcases hgb : b[ib]? with _ | y <;> rw [hgb] at h
    · simp at h
    · right
      exact lt_of_getElem?_some hgb

theorem advanceN_mkIter : ∀ (n : Nat) (a b : List Pfx) (cmp : Pfx → Pfx → Int) (ia ib : Nat),
    ∃ ja jb, advanceN (mkIter a b cmp ia ib) n = mkIter a b cmp ja jb ∧ ja + jb = ia + ib + n := by
  intro n
  induction n with
  | zero => exact fun a b cmp ia ib => ⟨ia, ib, rfl, by omega⟩
  | succ n ih =>
    intro a b cmp ia ib
    show ∃ ja jb, advanceN (mkIter a b cmp ia ib).Inc n = _ ∧ _
    rw [Inc_mkIter]
    by_cases h : mergeIter.nextA ⟨a, b, ia, ib, cmp, false⟩ = true
    · rw [if_pos h]
      obtain ⟨ja, jb, he, hs⟩ := ih a b cmp (ia + 1) ib
      exact ⟨ja, jb, he, by omega⟩
    · rw [if_neg h]
      obtain ⟨ja, jb, he, hs⟩ := ih a b cmp ia (ib + 1)
      exact ⟨ja, jb, he, by omega⟩

theorem advanceN_mkIter_bounded :
    ∀ (n : Nat) (a b : List Pfx) (cmp : Pfx → Pfx → Int) (ia ib : Nat),
    ia ≤ a.length → ib ≤ b.length → ia + ib + n ≤ a.length + b.length →
    ∃ ja jb, advanceN (mkIter a b cmp ia ib) n = mkIter a b cmp ja jb ∧
      ja + jb = ia + ib + n ∧ ja ≤ a.length ∧ jb ≤ b.length := by
  intro n
  induction n with
  | zero => exact fun a b cmp ia ib hia hib _ => ⟨ia, ib, rfl, by omega, hia, hib⟩
  | succ n ih =>
    intro a b cmp ia ib hia hib hn
    show ∃ ja jb, advanceN (mkIter a b cmp ia ib).Inc n = _ ∧ _
    rw [Inc_mkIter]
    by_cases h : mergeIter.nextA ⟨a, b, ia, ib, cmp, false⟩ = true
    · rw [if_pos h]
      have hlt := nextA_true_lt h
      obtain ⟨ja, jb, he, hs, h1, h2⟩ := ih a b cmp (ia + 1) ib (by omega) hib (by omega)
      exact ⟨ja, jb, he, by omega, h1, h2⟩
    · rw [if_neg h]
      have hcases := nextA_false_cases (Bool.not_eq_true _ ▸ h : mergeIter.nextA ⟨a, b, ia, ib, cmp, false⟩ = false)
      have hlt : ib < b.length := by omega
      obtain ⟨ja, jb, he, hs, h1, h2⟩ := ih a b cmp ia (ib + 1) hia (by omega) (by omega)
      exact ⟨ja, jb, he, by omega, h1, h2⟩

theorem Get_mkIter_exhausted (a b : List Pfx) (cmp : Pfx → Pfx → Int) (ia ib : Nat)
    (h : a.length + b.length ≤ ia + ib) :
    mergeIter.Get (mkIter a b cmp ia ib) = Pfx.zeroP := by
  rw [mergeIter.Get]
  simp only [mkIter]
  rw [if_pos h]

theorem Get_mkIter_mem (a b : List Pfx) (cmp : Pfx → Pfx → Int) (ia ib : Nat)
    (hne : ia + ib < a.length + b.length) :
    mergeIter.Get (mkIter a b cmp ia ib) ∈ a ∨ mergeIter.Get (mkIter a b cmp ia ib) ∈ b := by
  rw [mergeIter.Get]
  simp only [mkIter]
  rw [if_neg (by omega)]
  cases h : mergeIter.nextA ⟨a, b, ia, ib, cmp, false⟩ with
  | true =>
    have hlt := nextA_true_lt h
    rcases hga : a[ia]? with _ | x
    · rw [List.getElem?_eq_none_iff] at hga
      omega
    · rw [if_pos rfl]
      exact Or.inl (mem_of_getElem?_some hga)
  | false =>
    have hcases := nextA_false_cases h
    have hlt : ib < b.length := by omega
    rcases hgb : b[ib]? with _ | y
    · rw [List.getElem?_eq_none_iff] at hgb
      omega
    · rw [if_neg (by simp)]
      exact Or.inr (mem_of_getElem?_some hgb)

theorem goMerge_sorted (cmp : Pfx → Pfx → Int) : ∀ (a b : List Pfx),
    a.Pairwise (fun u v => cmp u v ≤ 0) → b.Pairwise (fun u v => cmp u v ≤ 0) →
    (∀ x ∈ a, ∀ y ∈ b, cmp x y ≤ 0 ∨ cmp y x ≤ 0) →
    (∀ x ∈ a ++ b, ∀ y ∈ a ++ b, ∀ z ∈ a ++ b, cmp x y ≤ 0 → cmp y z ≤ 0 → cmp x z ≤ 0) →
    (goMerge cmp a b).Pairwise (fun u v => cmp u v ≤ 0)
  | [], ys => fun _ hb _ _ => by
    rw [goMerge_nil_left]
    exact hb
  | x :: xs, [] => fun ha _ _ _ => by
    rw [goMerge_nil_right]
    exact ha
  | x :: xs, y :: ys => fun ha hb htot htr => by
    rw [goMerge_cons_cons]
    have hxmem : x ∈ (x :: xs) ++ (y :: ys) := List.mem_append_left _ (List.mem_cons_self x xs)
    have hymem : y ∈ (x :: xs) ++ (y :: ys) :=
      List.mem_append_right _ (List.mem_cons_self y ys)
    by_cases hc : cmp x y ≤ 0
    · rw [if_pos hc]
      have hsub : ∀ t ∈ xs ++ (y :: ys), t ∈ (x :: xs) ++ (y :: ys) := by
        intro t ht
        rcases List.mem_append.mp ht with h | h
        · exact List.mem_append_left _ (List.mem_cons_of_mem _ h)
        · exact List.mem_append_right _ h
      refine List.Pairwise.cons ?_
        (goMerge_sorted cmp xs (y :: ys) ha.of_cons hb
          (fun u hu v hv => htot u (List.mem_cons_of_mem _ hu) v hv)
          (fun u hu v hv w hw => htr u (hsub u hu) v (hsub v hv) w (hsub w hw)))
      intro z hz
      have hz2 : z ∈ xs ++ (y :: ys) := (goMerge_perm cmp xs (y :: ys)).mem_iff.mp hz
      rcases List.mem_append.mp hz2 with hzx | hzy
      · exact (List.pairwise_cons.mp ha).1 z hzx
      · rcases List.mem_cons.mp hzy with rfl | hzys
        · exact hc
        · have hyz := (List.pairwise_cons.mp hb).1 z hzys
          exact htr x hxmem y hymem z
            (List.mem_append_right _ (List.mem_cons_of_mem _ hzys)) hc hyz
    · rw [if_neg hc]
      have hyx : cmp y x ≤ 0 := by
        rcases htot x (List.mem_cons_self x xs) y (List.mem_cons_self y ys) with h | h
        · exact absurd h hc
        · exact h
      have hsub : ∀ t ∈ (x :: xs) ++ ys, t ∈ (x :: xs) ++ (y :: ys) := by
        intro t ht
        rcases List.mem_append.mp ht with h | h
        · exact List.mem_append_left _ h
        · exact List.mem_append_right _ (List.mem_cons_of_mem _ h)
      refine List.Pairwise.cons ?_
        (goMerge_sorted cmp (x :: xs) ys ha hb.of_cons
          (fun u hu v hv => htot u hu v (List.mem_cons_of_mem _ hv))
          (fun u hu v hv w hw => htr u (hsub u hu) v (hsub v hv) w (hsub w hw)))
      intro z hz
      have hz2 : z ∈ (x :: xs) ++ ys := (goMerge_perm cmp (x :: xs) ys).mem_iff.mp hz
      rcases List.mem_append.mp hz2 with hzx | hzy
      · rcases List.mem_cons.mp hzx with rfl | hzxs
        · exact hyx
        · have hxz := (List.pairwise_cons.mp ha).1 z hzxs
          exact htr y hymem x hxmem z
            (List.mem_append_left _ (List.mem_cons_of_mem _ hzxs)) hyx hxz
      · exact (List.pairwise_cons.mp hb).1 z hzy
termination_by a b => a.length + b.length

theorem get_advanceN_exhausted (a b : List Pfx) (cmp : Pfx → Pfx → Int) (n : Nat)
    (hn : a.length + b.length ≤ n) :
    mergeIter.Get (advanceN (newMergeIter a b cmp) n) = Pfx.zeroP := by
  rw [newMergeIter_eq_mkIter]
  obtain ⟨ja, jb, he, hs⟩ := advanceN_mkIter n a b cmp 0 0
  rw [he]
  exact Get_mkIter_exhausted a b cmp ja jb (by omega)

theorem get_advanceN_mem (a b : List Pfx) (cmp : Pfx → Pfx → Int) (n : Nat)
    (hn : n < a.length + b.length) :
    mergeIter.Get (advanceN (newMergeIter a b cmp) n) ∈ a ∨
      mergeIter.Get (advanceN (newMergeIter a b cmp) n) ∈ b := by
  rw [newMergeIter_eq_mkIter]
  obtain ⟨ja, jb, he, hs, h1, h2⟩ :=
    advanceN_mkIter_bounded n a b cmp 0 0 (by omega) (by omega) (by omega)
  rw [he]
  exact Get_mkIter_mem a b cmp ja jb (by omega)


/-- C2 counterexample: with A = B = [10.0.0.0/24] the comparator ties, yet
the walk emits the element twice — B's equal copy does surface — and the
total emitted count before the zero sentinel is 2 = |A| + |B| even though a
tie occurs, contradicting both halves of the claim. -/
theorem claim_C2_counterexample :
    pfxCompare pfxA pfxA = 0 ∧
    walkN (newMergeIter [pfxA] [pfxA] pfxCompare) 2 = [pfxA, pfxA] ∧
    mergeIter.Get (advanceN (newMergeIter [pfxA] [pfxA] pfxCompare) 2) = Pfx.zeroP := by
  refine ⟨by decide, by decide, by decide⟩

/-- C2 (amended): on an exact comparator tie between the two current heads,
A's copy is emitted first, and B's equal element is not skipped: the full
walk is a permutation of A ++ B, so every element of both inputs (B's tied
copy included) is emitted, and the walk always emits |A| + |B| elements. -/
theorem claim_C2_amended_tie_keeps_b (x y : Pfx) (xs ys : List Pfx)
    (cmp : Pfx → Pfx → Int) (htie : cmp x y = 0) :
    mergeIter.Get (newMergeIter (x :: xs) (y :: ys) cmp) = x ∧
    (walkN (newMergeIter (x :: xs) (y :: ys) cmp)
        ((x :: xs).length + (y :: ys).length)).Perm ((x :: xs) ++ (y :: ys)) := by
  constructor
  · rw [newMergeIter_eq_mkIter]
    have hnA : mergeIter.nextA ⟨x :: xs, y :: ys, (0 : Nat), (0 : Nat), cmp, false⟩ = true := by
      rw [nextA_eval]
      simp [htie]
    rw [mergeIter.Get]
    simp only [mkIter, hnA]
    rw [if_neg (by simp)]
    simp
  · rw [walk_eq_goMerge]
    exact goMerge_perm cmp _ _

/-- C2 witness: the amended theorem applied at the concrete tie A = B =
[10.0.0.0/24]. -/
theorem claim_C2_amended_witness :
    mergeIter.Get (newMergeIter [pfxA] [pfxA] pfxCompare) = pfxA ∧
    (walkN (newMergeIter [pfxA] [pfxA] pfxCompare) 2).Perm ([pfxA] ++ [pfxA]) :=
  claim_C2_amended_tie_keeps_b pfxA pfxA [] [] pfxCompare (by decide)

/-- C6: for input sequences each sorted ascending under the supplied
three-way comparator (a comparator being total and transitive on the
elements involved), the sequence emitted by the walk Get/Inc over all
|A| + |B| positions is itself sorted under that comparator. -/
theorem claim_C6_merge_walk_sorted (a b : List Pfx) (cmp : Pfx → Pfx → Int)
    (ha : a.Pairwise fun u v => cmp u v ≤ 0) (hb : b.Pairwise fun u v => cmp u v ≤ 0)
    (htot : ∀ x ∈ a, ∀ y ∈ b, cmp x y ≤ 0 ∨ cmp y x ≤ 0)
    (htr : ∀ x ∈ a ++ b, ∀ y ∈ a ++ b, ∀ z ∈ a ++ b,
      cmp x y ≤ 0 → cmp y z ≤ 0 → cmp x z ≤ 0) :
    (walkN (newMergeIter a b cmp) (a.length + b.length)).Pairwise
      fun u v => cmp u v ≤ 0 := by
  rw [walk_eq_goMerge]
  exact goMerge_sorted cmp a b ha hb htot htr

/-- C6 witness: A = [10.0.0.0/24, 10.0.2.0/24], B = [10.0.1.0/24] under the
address-then-length comparator: the walk is exactly the merged sorted
sequence [10.0.0.0/24, 10.0.1.0/24, 10.0.2.0/24] (3 elements), it is sorted
(by the theorem applied at this input), and Get returns the zero-value
prefix right after the third element. -/
theorem claim_C6_witness :
    walkN (newMergeIter [pfxA, pfxC] [pfxB] pfxCompare) 3 = [pfxA, pfxB, pfxC] ∧
    (walkN (newMergeIter [pfxA, pfxC] [pfxB] pfxCompare) 3).Pairwise
      (fun u v => pfxCompare u v ≤ 0) ∧
    mergeIter.Get (advanceN (newMergeIter [pfxA, pfxC] [pfxB] pfxCompare) 3) = Pfx.zeroP := by
  refine ⟨by decide, ?_, by decide⟩
  exact claim_C6_merge_walk_sorted [pfxA, pfxC] [pfxB] pfxCompare
    (by decide) (by decide) (by decide) (by decide)

/-- C8: for inputs containing no zero-value prefix, Get returns the
zero-value prefix exactly when both sequences are exhausted, i.e. when all
|A| + |B| elements have been emitted — the zero prefix is the sole
exhaustion signal. -/
theorem claim_C8_get_zero_iff_exhausted (a b : List Pfx) (cmp : Pfx → Pfx → Int) (n : Nat)
    (hza : Pfx.zeroP ∉ a) (hzb : Pfx.zeroP ∉ b) :
    mergeIter.Get (advanceN (newMergeIter a b cmp) n) = Pfx.zeroP ↔
      a.length + b.length ≤ n := by
  constructor
  · intro h
    by_contra hc
    rcases get_advanceN_mem a b cmp n (by omega) with hm | hm
    · rw [h] at hm
      exact hza hm
    · rw [h] at hm
      exact hzb hm
  · exact get_advanceN_exhausted a b cmp n

/-- C8 witness: the theorem applied at A = [10.0.0.0/24], B = [10.0.1.0/24]
after two steps. -/
theorem claim_C8_witness :
    (mergeIter.Get (advanceN (newMergeIter [pfxA] [pfxB] pfxCompare) 2) = Pfx.zeroP ↔
      [pfxA].length + [pfxB].length ≤ 2) :=
  claim_C8_get_zero_iff_exhausted [pfxA] [pfxB] pfxCompare 2 (by decide) (by decide)

/-- C9: the merge iterator never indexes a slice out of bounds and is safe
after exhaustion: in every state reachable by Inc from construction, when
lastA holds the a-cursor is within a, when lastA is false either both
sequences are exhausted or the b-cursor is within b (so Get's b-branch is
in bounds), and once n reaches |A| + |B| every Get returns the zero-value
prefix while Inc remains well-defined. -/
theorem claim_C9_no_out_of_bounds (a b : List Pfx) (cmp : Pfx → Pfx → Int) (n : Nat) :
    ((advanceN (newMergeIter a b cmp) n).lastA = true →
      (advanceN (newMergeIter a b cmp) n).ia < a.length) ∧
    ((advanceN (newMergeIter a b cmp) n).lastA = false →
      a.length + b.length ≤ n ∨ (advanceN (newMergeIter a b cmp) n).ib < b.length) ∧
    (a.length + b.length ≤ n →
      mergeIter.Get (advanceN (newMergeIter a b cmp) n) = Pfx.zeroP) := by
  rw [newMergeIter_eq_mkIter]
  obtain ⟨ja, jb, he, hs⟩ := advanceN_mkIter n a b cmp 0 0
  rw [he]
  refine ⟨?_, ?_, ?_⟩
  · intro h
    rw [mkIter_lastA] at h
    exact nextA_true_lt h
  · intro h
    rw [mkIter_lastA] at h
    rcases nextA_false_cases h with h1 | h1
    · left
      omega
    · right
      exact h1
  · intro h
    exact Get_mkIter_exhausted a b cmp ja jb (by omega)

/-- C10: for ascending-sorted inputs with no zero-value prefixes, the walk
emits exactly |A| + |B| elements before Get first returns the zero-value
prefix, regardless of comparator ties: the emitted sequence is precisely
the reference a-first merge of A and B and is a permutation of A ++ B, so
no element of either input is ever dropped (on a tie, A's copy comes first
and B's equal copy on a later step). -/
theorem claim_C10_emits_all (a b : List Pfx) (cmp : Pfx → Pfx → Int)
    (ha : a.Pairwise fun u v => cmp u v ≤ 0) (hb : b.Pairwise fun u v => cmp u v ≤ 0)
    (hza : Pfx.zeroP ∉ a) (hzb : Pfx.zeroP ∉ b) :
    walkN (newMergeIter a b cmp) (a.length + b.length) = goMerge cmp a b ∧
    (goMerge cmp a b).Perm (a ++ b) ∧
    (∀ k, k < a.length + b.length →
      mergeIter.Get (advanceN (newMergeIter a b cmp) k) ≠ Pfx.zeroP) ∧
    mergeIter.Get (advanceN (newMergeIter a b cmp) (a.length + b.length)) = Pfx.zeroP := by
  refine ⟨walk_eq_goMerge a b cmp, goMerge_perm cmp a b, ?_,
    get_advanceN_exhausted a b cmp _ (Nat.le_refl _)⟩
  intro k hk h
  rcases get_advanceN_mem a b cmp k hk with hm | hm
  · rw [h] at hm
    exact hza hm
  · rw [h] at hm
    exact hzb hm

/-- C10 witness: the theorem applied at A = [10.0.0.0/24, 10.0.2.0/24],
B = [10.0.1.0/24] under the address-then-length comparator. -/
theorem claim_C10_witness :
    walkN (newMergeIter [pfxA, pfxC] [pfxB] pfxCompare) 3 =
      goMerge pfxCompare [pfxA, pfxC] [pfxB] ∧
    (goMerge pfxCompare [pfxA, pfxC] [pfxB]).Perm ([pfxA, pfxC] ++ [pfxB]) ∧
    (∀ k, k < 3 →
      mergeIter.Get (advanceN (newMergeIter [pfxA, pfxC] [pfxB] pfxCompare) k) ≠ Pfx.zeroP) ∧
    mergeIter.Get (advanceN (newMergeIter [pfxA, pfxC] [pfxB] pfxCompare) 3) = Pfx.zeroP :=
  claim_C10_emits_all [pfxA, pfxC] [pfxB] pfxCompare
    (by decide) (by decide) (by decide) (by decide)


/-- C7: PoolIDFromString fails with the InvalidFormat error exactly when the
input is empty, or does not split on '/' into 3 or 5 segments, or the
top-level address+bits segment pair fails to parse as a CIDR, or (with 5
segments) the child address+bits pair fails to parse; in particular "",
"a/b" and "a/b/c/d" are all rejected with that error. -/
theorem claim_C7_parse_error_iff :
    (∀ s : Str,
      PoolIDFromString s = .error .invalidParameter ↔
        s = [] ∨
        ((goSplit slashC s).length ≠ 3 ∧ (goSplit slashC s).length ≠ 5) ∨
        ParsePrefix ((goSplit slashC s).getD 1 [] ++ slashC :: (goSplit slashC s).getD 2 [])
          = .error () ∨
        ((goSplit slashC s).length = 5 ∧
          ParsePrefix ((goSplit slashC s).getD 3 [] ++ slashC :: (goSplit slashC s).getD 4 [])
            = .error ())) ∧
    PoolIDFromString ("").toList = .error .invalidParameter ∧
    PoolIDFromString ("a/b").toList = .error .invalidParameter ∧
    PoolIDFromString ("a/b/c/d").toList = .error .invalidParameter := by
  refine ⟨fun s => ?_, by decide, by decide, by decide⟩
  by_cases h0 : s = []
  · simp [PoolIDFromString, h0]
  · simp only [PoolIDFromString]
    rw [if_neg h0]
    by_cases hlen : (goSplit slashC s).length ≠ 3 ∧ (goSplit slashC s).length ≠ 5
    · rw [if_pos hlen]
      exact iff_of_true rfl (Or.inr (Or.inl hlen))
    · rw [if_neg hlen]
      rcases hp1 : ParsePrefix ((goSplit slashC s).getD 1 [] ++ slashC ::
          (goSplit slashC s).getD 2 []) with e | subnet
      · obtain ⟨⟩ := e
        simp [hp1]
      · simp only [hp1]
        by_cases h5 : (goSplit slashC s).length = 5
        · rw [if_pos h5]
          rcases hp2 : ParsePrefix ((goSplit slashC s).getD 3 [] ++ slashC ::
              (goSplit slashC s).getD 4 []) with e2 | child
          · obtain ⟨⟩ := e2
            simp [hp2, h5]
          · simp only [hp2]
            constructor
            · intro h
              exact absurd h (by simp)
            · intro h
              rcases h with h | h | h | ⟨_, h⟩
              · exact absurd h h0
              · exact absurd h hlen
              · exact absurd h (by simp)
              · exact absurd h (by simp)
        · rw [if_neg h5]
          constructor
          · intro h
            exact absurd h (by simp)
          · intro h
            rcases h with h | h | h | ⟨h, _⟩
            · exact absurd h h0
            · exact absurd h hlen
            · exact absurd h (by simp)
            · exact absurd h h5

theorem decDigitsF_stable (n : Nat) : ∀ f, n < f → decDigitsF f n = decDigitsF (n + 1) n := by
  induction n using Nat.strong_induction_on with
  | _ n ih =>
    intro f hf
    cases f with
    | zero => omega
    | succ f2 =>
      by_cases h10 : n < 10
      · simp [decDigitsF, h10]
      · have hd : n / 10 < n := Nat.div_lt_self (by omega) (by norm_num)
        simp only [decDigitsF, if_neg h10]
        rw [ih (n / 10) hd f2 (by omega), ih (n / 10) hd n (by omega)]

theorem decDigits_eq (n : Nat) :
    decDigits n =
      if n < 10 then [Char.ofNat (48 + n)]
      else decDigits (n / 10) ++ [Char.ofNat (48 + n % 10)] := by
  show decDigitsF (n + 1) n = _
  by_cases h10 : n < 10
  · simp [decDigitsF, h10]
  · simp only [decDigitsF, if_neg h10]
    rw [decDigitsF_stable (n / 10) n (by have := Nat.div_lt_self (show 0 < n by omega) (show 1 < 10 by norm_num); omega)]
    rfl

theorem hexDigitsF_stable (n : Nat) : ∀ f, n < f → hexDigitsF f n = hexDigitsF (n + 1) n := by
  induction n using Nat.strong_induction_on with
  | _ n ih =>
    intro f hf
    cases f with
    | zero => omega
    | succ f2 =>
      by_cases h16 : n < 16
      · simp [hexDigitsF, h16]
      · have hd : n / 16 < n := Nat.div_lt_self (by omega) (by norm_num)
        simp only [hexDigitsF, if_neg h16]
        rw [ih (n / 16) hd f2 (by omega), ih (n / 16) hd n (by omega)]

theorem hexDigits_eq (n : Nat) :
    hexDigits n =
      if n < 16 then [hexChar n]
      else hexDigits (n / 16) ++ [hexChar (n % 16)] := by
  show hexDigitsF (n + 1) n = _
  by_cases h16 : n < 16
  · simp [hexDigitsF, h16]
  · simp only [hexDigitsF, if_neg h16]
    rw [hexDigitsF_stable (n / 16) n (by have := Nat.div_lt_self (show 0 < n by omega) (show 1 < 16 by norm_num); omega)]
    rfl

theorem toNat_ofNat_48 (d : Nat) (h : d < 10) : (Char.ofNat (48 + d)).toNat = 48 + d := by
  interval_cases d <;> decide

theorem toNat_hexChar (d : Nat) (h : d < 16) :
    (hexChar d).toNat = if d < 10 then 48 + d else 87 + d := by
  interval_cases d <;> decide

theorem mem_decDigits (v : Nat) : ∀ c ∈ decDigits v, 48 ≤ c.toNat ∧ c.toNat ≤ 57 := by
  induction v using Nat.strong_induction_on with
  | _ v ih =>
    intro c hc
    rw [decDigits_eq] at hc
    by_cases h10 : v < 10
    · rw [if_pos h10] at hc
      rcases List.mem_singleton.mp hc with rfl
      rw [toNat_ofNat_48 v h10]
      omega
    · rw [if_neg h10] at hc
      rcases List.mem_append.mp hc with h | h
      · exact ih (v / 10) (Nat.div_lt_self (by omega) (by norm_num)) c h
      · rcases List.mem_singleton.mp h with rfl
        rw [toNat_ofNat_48 _ (Nat.mod_lt _ (by norm_num))]
        have := Nat.mod_lt v (show 0 < 10 by norm_num)
        omega

theorem mem_hexDigits (v : Nat) :
    ∀ c ∈ hexDigits v, (48 ≤ c.toNat ∧ c.toNat ≤ 57) ∨ (97 ≤ c.toNat ∧ c.toNat ≤ 102) := by
  induction v using Nat.strong_induction_on with
  | _ v ih =>
    intro c hc
    rw [hexDigits_eq] at hc
    by_cases h16 : v < 16
    · rw [if_pos h16] at hc
      rcases List.mem_singleton.mp hc with rfl
      rw [toNat_hexChar v h16]
      split <;> omega
    · rw [if_neg h16] at hc
      rcases List.mem_append.mp hc with h | h
      · exact ih (v / 16) (Nat.div_lt_self (by omega) (by norm_num)) c h
      · rcases List.mem_singleton.mp h with rfl
        have hm := Nat.mod_lt v (show 0 < 16 by norm_num)
        rw [toNat_hexChar _ hm]
        split <;> omega

theorem decDigits_ne_nil (v : Nat) : decDigits v ≠ [] := by
  rw [decDigits_eq]
  split <;> simp

theorem hexDigits_ne_nil (v : Nat) : hexDigits v ≠ [] := by
  rw [hexDigits_eq]
  split <;> simp

theorem isDigitC_decDigits {v : Nat} {c : Char} (h : c ∈ decDigits v) : isDigitC c = true := by
  have := mem_decDigits v c h
  simp only [isDigitC, Bool.and_eq_true, decide_eq_true_eq]
  omega

theorem length_decDigits_pos (v : Nat) : 1 ≤ (decDigits v).length := by
  cases hd : decDigits v with
  | nil => exact absurd hd (decDigits_ne_nil v)
  | cons c r => simp

theorem p4loop_consume (v : Nat) : ∀ (v0 dl0 pos : Nat) (fields : List Nat) (tail : Str),
    ¬(dl0 = 1 ∧ v0 = 0) → v0 * 10 ^ (decDigits v).length + v ≤ 255 →
    p4loop (decDigits v ++ tail) v0 dl0 pos fields =
      p4loop tail (v0 * 10 ^ (decDigits v).length + v) (dl0 + (decDigits v).length)
        pos fields := by
  induction v using Nat.strong_induction_on with
  | _ v ih =>
    intro v0 dl0 pos fields tail hguard hbound
    by_cases h10 : v < 10
    · have hd : decDigits v = [Char.ofNat (48 + v)] := by rw [decDigits_eq, if_pos h10]
      rw [hd] at hbound ⊢
      simp only [List.length_cons, List.length_nil, pow_one, List.cons_append,
        List.nil_append] at hbound ⊢
      rw [p4loop]
      rw [if_pos (by simp [isDigitC, toNat_ofNat_48 v h10]; omega)]
      rw [if_neg hguard]
      rw [toNat_ofNat_48 v h10]
      have hv : 48 + v - 48 = v := by omega
      rw [hv]
      rw [if_neg (by omega)]
      norm_num
    · have hd : decDigits v = decDigits (v / 10) ++ [Char.ofNat (48 + v % 10)] := by
        rw [decDigits_eq, if_neg h10]
      have hdiv : v / 10 < v := Nat.div_lt_self (by omega) (by norm_num)
      have hdm := Nat.div_add_mod v 10
      have hlen : (decDigits v).length = (decDigits (v / 10)).length + 1 := by
        rw [hd]
        simp
      have hL := length_decDigits_pos (v / 10)
      have hpow : 10 ^ ((decDigits (v / 10)).length + 1) =
          10 ^ (decDigits (v / 10)).length * 10 := by
        rw [pow_succ]
      have hb2 : v0 * 10 ^ (decDigits (v / 10)).length + v / 10 ≤ 255 := by
        rw [hlen, hpow] at hbound
        have h1 : v0 * (10 ^ (decDigits (v / 10)).length * 10) =
            v0 * 10 ^ (decDigits (v / 10)).length * 10 := by ring
        rw [h1] at hbound
        omega
      rw [hd, List.append_assoc]
      rw [ih (v / 10) hdiv v0 dl0 pos fields _ hguard hb2]
      have hone : v / 10 ≥ 1 := by omega
      rw [List.singleton_append, p4loop]
      rw [if_pos (by simp [isDigitC, toNat_ofNat_48 (v % 10) (Nat.mod_lt _ (by norm_num))]; omega)]
      rw [if_neg (by intro hcon; omega)]
      rw [toNat_ofNat_48 (v % 10) (Nat.mod_lt _ (by norm_num))]
      have hv : 48 + v % 10 - 48 = v % 10 := by omega
      rw [hv]
      have hval : (v0 * 10 ^ (decDigits (v / 10)).length + v / 10) * 10 + v % 10 =
          v0 * 10 ^ (decDigits v).length + v := by
        rw [hlen, hpow]
        have h1 : v0 * (10 ^ (decDigits (v / 10)).length * 10) =
            v0 * 10 ^ (decDigits (v / 10)).length * 10 := by ring
        rw [h1]
        omega
      rw [if_neg (by rw [hval]; omega)]
      rw [hval, hlen]
      have : dl0 + (decDigits (v / 10)).length + 1 =
          dl0 + ((decDigits (v / 10)).length + 1) := by omega
      rw [this]
      simp

theorem p4loop_dot_step (rest : Str) (val dl pos : Nat) (fields : List Nat)
    (hdl : 1 ≤ dl) (hrest : rest ≠ []) (hpos : pos ≤ 2) :
    p4loop (dotC :: rest) val dl pos fields = p4loop rest 0 0 (pos + 1) (fields ++ [val]) := by
  rw [p4loop]
  rw [if_neg (by decide)]
  rw [if_pos rfl]
  rw [if_neg (by
    intro hcon
    rcases hcon with h | h
    · omega
    · exact hrest h)]
  rw [if_neg (by omega)]

theorem p4loop_octet (o : Nat) (ho : o ≤ 255) (pos : Nat) (fields : List Nat) (tail : Str) :
    p4loop (decDigits o ++ tail) 0 0 pos fields =
      p4loop tail o (decDigits o).length pos fields := by
  have h := p4loop_consume o 0 0 pos fields tail (by omega) (by simpa using ho)
  simpa using h

theorem parseIPv4_string4 (n : Nat) (h : n < 4294967296) :
    parseIPv4 (string4 n) = .ok (.v4 n) := by
  have h0 : n / 16777216 % 256 ≤ 255 := by omega
  have h1 : n / 65536 % 256 ≤ 255 := by omega
  have h2 : n / 256 % 256 ≤ 255 := by omega
  have h3 : n % 256 ≤ 255 := by omega
  have hne : ∀ (v : Nat) (t : Str), decDigits v ++ t ≠ [] := by
    intro v t hcon
    exact decDigits_ne_nil v (List.append_eq_nil.mp hcon).1
  have hne2 : ∀ v : Nat, decDigits v ≠ [] := decDigits_ne_nil
  rw [parseIPv4, string4]
  rw [p4loop_octet _ h0 0 []]
  rw [p4loop_dot_step _ _ _ _ _ (length_decDigits_pos _) (hne _ _) (by omega)]
  rw [p4loop_octet _ h1 1 _]
  rw [p4loop_dot_step _ _ _ _ _ (length_decDigits_pos _) (hne _ _) (by omega)]
  rw [p4loop_octet _ h2 2 _]
  rw [p4loop_dot_step _ _ _ _ _ (length_decDigits_pos _) (hne2 _) (by omega)]
  rw [← List.append_nil (decDigits (n % 256))]
  rw [p4loop_octet _ h3 3 _]
  rw [p4loop]
  rw [if_neg (by omega)]
  congr 2
  simp [List.foldl]
  omega

theorem digitVal_hexChar (d : Nat) (h : d < 16) : digitVal (hexChar d) = d := by
  interval_cases d <;> decide

theorem isHexDigitC_hexDigits {v : Nat} {c : Char} (h : c ∈ hexDigits v) :
    isHexDigitC c = true := by
  have := mem_hexDigits v c h
  simp only [isHexDigitC, isDigitC, Bool.or_eq_true, Bool.and_eq_true, decide_eq_true_eq]
  omega

theorem isHexDigitC_of_isDigitC {c : Char} (h : isDigitC c = true) : isHexDigitC c = true := by
  simp [isHexDigitC, h]

theorem hexFieldLoop_consume : ∀ (ds : Str) (acc off : Nat) (tail : Str),
    (∀ c ∈ ds, isHexDigitC c = true) →
    (∀ c, tail.head? = some c → isHexDigitC c = false) →
    off + ds.length ≤ 4 →
    hexFieldLoop (ds ++ tail) acc off =
      .ok (ds.foldl (fun a c => a * 16 + digitVal c) acc, off + ds.length, tail) := by
  intro ds
  induction ds with
  | nil =>
    intro acc off tail _ htail _
    simp only [List.nil_append, List.foldl_nil, List.length_nil, Nat.add_zero]
    cases tail with
    | nil => rfl
    | cons c rest =>
      rw [hexFieldLoop]
      rw [if_neg (by simp [htail c rfl])]
  | cons d ds ih =>
    intro acc off tail hds htail hlen
    have hlen2 : off + ds.length + 1 ≤ 4 := by
      simp only [List.length_cons] at hlen
      omega
    rw [List.cons_append, hexFieldLoop]
    rw [if_pos (hds d (List.mem_cons_self d ds))]
    rw [if_neg (by omega)]
    rw [ih (acc * 16 + digitVal d) (off + 1) tail
      (fun c hc => hds c (List.mem_cons_of_mem _ hc)) htail (by omega)]
    simp only [List.foldl_cons, List.length_cons]
    have h3 : off + 1 + ds.length = off + (ds.length + 1) := by omega
    rw [h3]

theorem foldl_hexDigits (g : Nat) : ∀ acc : Nat,
    (hexDigits g).foldl (fun a c => a * 16 + digitVal c) acc =
      acc * 16 ^ (hexDigits g).length + g := by
  induction g using Nat.strong_induction_on with
  | _ g ih =>
    intro acc
    by_cases h16 : g < 16
    · have hd : hexDigits g = [hexChar g] := by rw [hexDigits_eq, if_pos h16]
      rw [hd]
      simp [digitVal_hexChar g h16]
    · have hd : hexDigits g = hexDigits (g / 16) ++ [hexChar (g % 16)] := by
        rw [hexDigits_eq, if_neg h16]
      have hdiv : g / 16 < g := Nat.div_lt_self (by omega) (by norm_num)
      rw [hd, List.foldl_append]
      rw [ih (g / 16) hdiv acc]
      simp only [List.foldl_cons, List.foldl_nil, List.length_append, List.length_cons,
        List.length_nil]
      rw [digitVal_hexChar _ (Nat.mod_lt _ (by norm_num))]
      have hpow : 16 ^ ((hexDigits (g / 16)).length + (0 + 1)) =
          16 ^ (hexDigits (g / 16)).length * 16 := by
        rw [Nat.add_comm 0 1, pow_succ]
      rw [hpow]
      have h1 : (acc * 16 ^ (hexDigits (g / 16)).length + g / 16) * 16 =
          acc * (16 ^ (hexDigits (g / 16)).length * 16) + g / 16 * 16 := by ring
      rw [h1]
      have := Nat.div_add_mod g 16
      omega

theorem hexDigits_len_le : ∀ (k g : Nat), 1 ≤ k → g < 16 ^ k → (hexDigits g).length ≤ k := by
  intro k
  induction k with
  | zero => omega
  | succ k ih =>
    intro g _ hg
    by_cases h16 : g < 16
    · rw [hexDigits_eq, if_pos h16]
      simp
    · have hd : hexDigits g = hexDigits (g / 16) ++ [hexChar (g % 16)] := by
        rw [hexDigits_eq, if_neg h16]
      rw [hd]
      simp only [List.length_append, List.length_cons, List.length_nil]
      have hk : 1 ≤ k := by
        by_contra hc
        have : k = 0 := by omega
        subst this
        simp at hg
        omega
      have : g / 16 < 16 ^ k := by
        rw [pow_succ] at hg
        omega
      have := ih (g / 16) hk this
      omega


theorem p6loop_one_group (fuel g : Nat) (hg : g < 65536) (acc : List Nat) (ell : Option Nat)
    (suffix : Str) (hacc : acc.length < 8)
    (hsuf : ∀ c, suffix.head? = some c → isHexDigitC c = false ∧ c ≠ dotC) :
    p6loop (fuel + 1) (hexDigits g ++ suffix) acc ell = afterGroups fuel suffix (acc ++ [g]) ell := by
  have hlen4 : 0 + (hexDigits g).length ≤ 4 := by
    simpa using hexDigits_len_le 4 g (by norm_num) (by norm_num; omega)
  have hfold : (hexDigits g).foldl (fun a c => a * 16 + digitVal c) 0 = g := by
    rw [foldl_hexDigits]
    simp
  have hlenpos : 1 ≤ (hexDigits g).length := by
    cases hd : hexDigits g with
    | nil => exact absurd hd (hexDigits_ne_nil g)
    | cons c r => simp
  rw [p6loop]
  rw [if_neg (by omega)]
  rw [hexFieldLoop_consume (hexDigits g) 0 0 suffix
    (fun c hc => isHexDigitC_hexDigits hc) (fun c hc => (hsuf c hc).1) hlen4]
  simp only [hfold]
  rw [if_neg (by omega)]
  cases suffix with
  | nil =>
    rw [if_neg (by simp)]
    rfl
  | cons c r =>
    rw [if_neg (by
      simp only [List.head?_cons, Option.some_inj]
      intro hcon
      exact (hsuf c rfl).2 hcon)]
    rfl

theorem joinG_cons_head (g : Nat) (gs : List Nat) :
    ∃ c r, joinG (g :: gs) = c :: r ∧ isHexDigitC c = true := by
  cases hd : hexDigits g with
  | nil => exact absurd hd (hexDigits_ne_nil g)
  | cons c hr =>
    have hcmem : c ∈ hexDigits g := by
      rw [hd]
      exact List.mem_cons_self c hr
    cases gs with
    | nil => exact ⟨c, hr, by rw [joinG, hd], isHexDigitC_hexDigits hcmem⟩
    | cons g2 gs2 =>
      refine ⟨c, hr ++ colonC :: joinG (g2 :: gs2), ?_, isHexDigitC_hexDigits hcmem⟩
      show hexDigits g ++ colonC :: joinG (g2 :: gs2) = _
      rw [hd]
      rfl

theorem p6loop_groups : ∀ (gs acc : List Nat) (ell : Option Nat) (fuel : Nat) (suffix : Str),
    gs ≠ [] → (∀ g ∈ gs, g < 65536) → acc.length + gs.length ≤ 8 → gs.length ≤ fuel →
    (∀ c, suffix.head? = some c → isHexDigitC c = false ∧ c ≠ dotC) →
    p6loop fuel (joinG gs ++ suffix) acc ell =
      afterGroups (fuel - gs.length) suffix (acc ++ gs) ell := by
  intro gs
  induction gs with
  | nil => intro _ _ _ _ hne; exact absurd rfl hne
  | cons g1 gs1 ih =>
    intro acc ell fuel suffix _ hbound hlen hfuel hsuf
    cases gs1 with
    | nil =>
      cases fuel with
      | zero => simp at hfuel
      | succ f =>
        have h1 : joinG [g1] = hexDigits g1 := by rw [joinG]
        rw [h1]
        rw [p6loop_one_group f g1 (hbound g1 (List.mem_cons_self _ _)) acc ell suffix
          (by simp at hlen; omega) hsuf]
        simp
    | cons g2 gs2 =>
      cases fuel with
      | zero => simp at hfuel
      | succ f =>
        have h1 : joinG (g1 :: g2 :: gs2) = hexDigits g1 ++ colonC :: joinG (g2 :: gs2) := rfl
        rw [h1, List.append_assoc, List.cons_append]
        rw [p6loop_one_group f g1 (hbound g1 (List.mem_cons_self _ _)) acc ell
          (colonC :: (joinG (g2 :: gs2) ++ suffix))
          (by simp at hlen; omega)
          (by
            intro c hc
            simp only [List.head?_cons, Option.some_inj] at hc
            subst hc
            exact ⟨by decide, by decide⟩)]
        rw [afterGroups.eq_def]
        simp only []
        rw [if_neg (by simp)]
        obtain ⟨c2, r3, hjoin, hhex⟩ := joinG_cons_head g2 gs2
        have h2 : joinG (g2 :: gs2) ++ suffix = c2 :: (r3 ++ suffix) := by
          rw [hjoin]
          rfl
        rw [h2]
        split
        · rename_i heq
          exact absurd heq (by simp)
        · rename_i c2x rest3 heq
          injection heq with hc2 hrest
          subst hc2
          subst hrest
          rw [if_neg (by
            intro hcon
            rw [hcon] at hhex
            exact absurd hhex (by decide))]
          rw [← h2]
          rw [ih (acc ++ [g1]) ell f suffix (by simp)
            (fun g hg => hbound g (List.mem_cons_of_mem _ hg))
            (by simp at hlen ⊢; omega)
            (by simp at hfuel ⊢; omega) hsuf]
          rw [List.append_assoc]
          have h3 : f - (g2 :: gs2).length = f + 1 - (g1 :: g2 :: gs2).length := by
            simp
          rw [h3]
          rfl

theorem zrFrom_le_length : ∀ l : List Nat, zrFrom l ≤ l.length := by
  intro l
  induction l with
  | nil => simp [zrFrom]
  | cons g gs ih =>
    rw [zrFrom]
    split
    · simp
      omega
    · simp

theorem zrFrom_zeros : ∀ (l : List Nat) (k : Nat), k < zrFrom l → l.getD k 1 = 0 := by
  intro l
  induction l with
  | nil => simp [zrFrom]
  | cons g gs ih =>
    intro k hk
    rw [zrFrom] at hk
    split at hk
    · cases k with
      | zero =>
        rename_i hg
        simpa using hg
      | succ k2 =>
        have := ih k2 (by omega)
        simpa using this
    · omega

theorem getD_drop (l : List Nat) (i k : Nat) : (l.drop i).getD k 1 = l.getD (i + k) 1 := by
  simp [List.getD, List.getElem?_drop]

theorem bzr_prop (gs : List Nat) : ∀ (l : List Nat) (i : Nat) (best : Option (Nat × Nat)),
    l = gs.drop i →
    (∀ se, best = some se → se.1 + 2 ≤ se.2 ∧ se.2 ≤ gs.length ∧
      ∀ j, se.1 ≤ j → j < se.2 → gs.getD j 1 = 0) →
    ∀ se, bzr l i best = some se → se.1 + 2 ≤ se.2 ∧ se.2 ≤ gs.length ∧
      ∀ j, se.1 ≤ j → j < se.2 → gs.getD j 1 = 0 := by
  intro l
  induction l with
  | nil =>
    intro i best _ hbest se hse
    exact hbest se hse
  | cons g l2 ih =>
    intro i best hdrop hbest se hse
    rw [bzr.eq_def] at hse
    dsimp only [] at hse
    refine ih (i + 1) _ (drop_succ_of_drop_cons hdrop.symm).symm ?_ se hse
    intro se2 hse2
    split at hse2
    · rename_i hcond
      injection hse2 with hse2
      subst hse2
      have hr := zrFrom_le_length (g :: l2)
      have hlen : (g :: l2).length = gs.length - i := by
        rw [hdrop]
        simp
    
      refine ⟨by omega, by omega, ?_⟩
      intro j hj1 hj2
      have hz := zrFrom_zeros (g :: l2) (j - i) (by omega)
      rw [hdrop, getD_drop] at hz
      have : i + (j - i) = j := by omega
      rw [this] at hz
      exact hz
    · exact hbest se2 hse2

theorem bestZeroRun_prop (gs : List Nat) (s e : Nat) (h : bestZeroRun gs = some (s, e)) :
    s + 2 ≤ e ∧ e ≤ gs.length ∧ ∀ j, s ≤ j → j < e → gs.getD j 1 = 0 := by
  refine bzr_prop gs gs 0 none (List.drop_zero gs).symm ?_ (s, e) h
  intro se hse
  cases hse

theorem take_replicate_drop (gs : List Nat) (s e : Nat) (hse : s ≤ e) (he : e ≤ gs.length)
    (hz : ∀ j, s ≤ j → j < e → gs.getD j 1 = 0) :
    gs.take s ++ (List.replicate (e - s) 0 ++ gs.drop e) = gs := by
  have hmid : (gs.drop s).take (e - s) = List.replicate (e - s) 0 := by
    apply List.eq_replicate_iff.mpr
    constructor
    · rw [List.length_take, List.length_drop]
      omega
    · intro b hb
      obtain ⟨i, hi, hbi⟩ := List.mem_iff_getElem.mp hb
      have hi2 : i < e - s := by
        rw [List.length_take, List.length_drop] at hi
        omega
      have h1 : ((gs.drop s).take (e - s))[i]? = (gs.drop s)[i]? := by
        rw [List.getElem?_take, if_pos hi2]
      have h2 : (gs.drop s)[i]? = gs[s + i]? := List.getElem?_drop gs s i
      have h3 : ((gs.drop s).take (e - s))[i]? = some b := by
        rw [List.getElem?_eq_getElem hi, hbi]
      have h4 : gs[s + i]? = some b := by rw [← h2, ← h1, h3]
      have h5 := hz (s + i) (by omega) (by omega)
      rw [List.getD_eq_getElem?_getD, h4] at h5
      exact h5
  have hdd : (gs.drop s).drop (e - s) = gs.drop e := by
    rw [List.drop_drop]
    congr 1
    omega
  rw [← hmid, ← hdd, List.take_append_drop, List.take_append_drop]

theorem v6groups_length (n : Nat) : (v6groups n).length = 8 := rfl

theorem v6groups_lt (n : Nat) : ∀ g ∈ v6groups n, g < 65536 := by
  intro g hg
  simp only [v6groups, List.mem_cons, List.not_mem_nil, or_false] at hg
  rcases hg with rfl | rfl | rfl | rfl | rfl | rfl | rfl | rfl <;> omega

theorem groupsToNat_v6groups (n : Nat) (h : n < 340282366920938463463374607431768211456) :
    groupsToNat (v6groups n) = n := by
  simp only [groupsToNat, v6groups, List.foldl]
  omega

theorem decDigits_len_le : ∀ (k v : Nat), 1 ≤ k → v < 10 ^ k → (decDigits v).length ≤ k := by
  intro k
  induction k with
  | zero => omega
  | succ k ih =>
    intro v _ hv
    by_cases h10 : v < 10
    · rw [decDigits_eq, if_pos h10]
      simp
    · have hd : decDigits v = decDigits (v / 10) ++ [Char.ofNat (48 + v % 10)] := by
        rw [decDigits_eq, if_neg h10]
      rw [hd]
      simp only [List.length_append, List.length_cons, List.length_nil]
      have hk : 1 ≤ k := by
        by_contra hc
        have : k = 0 := by omega
        subst this
        simp at hv
        omega
      have hv2 : v / 10 < 10 ^ k := by
        rw [pow_succ] at hv
        omega
      have := ih (v / 10) hk hv2
      omega

theorem string4_head (m : Nat) :
    ∃ d r, string4 m = d :: r ∧ isDigitC d = true := by
  cases hd : decDigits (m / 16777216 % 256) with
  | nil => exact absurd hd (decDigits_ne_nil _)
  | cons d dr =>
    have hdig : isDigitC d = true := by
      apply isDigitC_decDigits (v := m / 16777216 % 256)
      rw [hd]
      exact List.mem_cons_self d dr
    refine ⟨d, dr ++ dotC :: (decDigits (m / 65536 % 256) ++ dotC ::
      (decDigits (m / 256 % 256) ++ dotC :: decDigits (m % 256))), ?_, hdig⟩
    rw [string4, hd]
    rfl

theorem p6finish_full (acc : List Nat) (h : acc.length = 8) : p6finish acc none = .ok acc := by
  rw [p6finish, if_neg (by omega)]

theorem p6finish_ell (acc : List Nat) (k : Nat) (h : acc.length < 8) :
    p6finish acc (some k) =
      .ok (acc.take k ++ List.replicate (8 - acc.length) 0 ++ acc.drop k) := by
  rw [p6finish, if_pos h]

theorem afterGroups_nil (f : Nat) (acc : List Nat) (ell : Option Nat) :
    afterGroups f [] acc ell = p6finish acc ell := rfl

theorem afterGroups_dcolon (f : Nat) (acc : List Nat) (rest : Str) :
    afterGroups f (colonC :: colonC :: rest) acc none =
      if rest = [] then p6finish acc (some acc.length)
      else p6loop f rest acc (some acc.length) := rfl

theorem p6loop_v4embed (fuel m : Nat) (hm : m < 4294967296) (acc : List Nat) (k : Nat)
    (hfuel : 1 ≤ fuel) (hacc : acc.length ≤ 6) :
    p6loop fuel (string4 m) acc (some k) = p6finish (acc ++ [m / 65536, m % 65536]) (some k) := by
  cases fuel with
  | zero => omega
  | succ f =>
    have ho : m / 16777216 % 256 ≤ 255 := by omega
    have hlen3 : (decDigits (m / 16777216 % 256)).length ≤ 3 :=
      decDigits_len_le 3 _ (by norm_num) (by norm_num; omega)
    have hlenpos : 1 ≤ (decDigits (m / 16777216 % 256)).length := length_decDigits_pos _
    rw [p6loop]
    rw [if_neg (by omega)]
    have hs4 : string4 m = decDigits (m / 16777216 % 256) ++ dotC ::
        (decDigits (m / 65536 % 256) ++ dotC ::
          (decDigits (m / 256 % 256) ++ dotC :: decDigits (m % 256))) := rfl
    rw [hs4]
    rw [hexFieldLoop_consume _ 0 0 _
      (fun c hc => isHexDigitC_of_isDigitC (isDigitC_decDigits hc))
      (by
        intro c hc
        simp only [List.head?_cons, Option.some_inj] at hc
        subst hc
        decide)
      (by omega)]
    dsimp only []
    rw [if_neg (by omega)]
    have hdothead : (dotC :: (decDigits (m / 65536 % 256) ++ dotC ::
        (decDigits (m / 256 % 256) ++ dotC :: decDigits (m % 256)))).head? = some dotC := rfl
    rw [if_pos hdothead]
    rw [if_neg (fun hcon => Option.noConfusion hcon.1)]
    rw [if_neg (by omega)]
    rw [← hs4]
    rw [parseIPv4_string4 m hm]

theorem isDigitC_ne_colonC {c : Char} (h : isDigitC c = true) : c ≠ colonC := by
  intro hcon
  subst hcon
  exact absurd h (by decide)

theorem isHexDigitC_ne_colonC {c : Char} (h : isHexDigitC c = true) : c ≠ colonC := by
  intro hcon
  subst hcon
  exact absurd h (by decide)

theorem afterGroups_colon_nc (f : Nat) (acc : List Nat) (ell : Option Nat) (c2 : Char) (r : Str)
    (hc2 : c2 ≠ colonC) :
    afterGroups f (colonC :: c2 :: r) acc ell = p6loop f (c2 :: r) acc ell := by
  show (if c2 = colonC then
      if ell.isSome = true then Except.error ()
      else if r = [] then p6finish acc (some acc.length)
      else p6loop f r acc (some acc.length)
    else p6loop f (c2 :: r) acc ell) = p6loop f (c2 :: r) acc ell
  rw [if_neg hc2]

theorem parseIPv6_no_leading_dcolon (s : Str) (c : Char) (r : Str) (hs : s = c :: r)
    (hc : c ≠ colonC) :
    parseIPv6 s = (p6loop 9 s [] none).map fun gs => Addr.v6 (groupsToNat gs) := by
  subst hs
  cases r with
  | nil => rfl
  | cons c2 r2 =>
    show (if c = colonC ∧ c2 = colonC then
        if r2 = [] then .ok (.v6 0)
        else (p6loop 9 r2 [] (some 0)).map fun gs => Addr.v6 (groupsToNat gs)
      else (p6loop 9 (c :: c2 :: r2) [] none).map fun gs => Addr.v6 (groupsToNat gs)) = _
    rw [if_neg (fun hcon => hc hcon.1)]

theorem joinG_nil : joinG [] = [] := rfl

theorem parseIPv6_4in6 (n : Nat) (h : n < 340282366920938463463374607431768211456)
    (h46 : n / 4294967296 = 65535) :
    parseIPv6 (("::ffff:").toList ++ string4 (n % 4294967296)) = .ok (.v6 n) := by
  have hf : joinG [65535] =
      [Char.ofNat 102, Char.ofNat 102, Char.ofNat 102, Char.ofNat 102] := by decide
  have hstr : ("::ffff:").toList ++ string4 (n % 4294967296) =
      colonC :: colonC :: (joinG [65535] ++ colonC :: string4 (n % 4294967296)) := by
    rw [hf]
    rfl
  rw [hstr]
  rw [parseIPv6]
  rw [if_pos ⟨rfl, rfl⟩]
  rw [if_neg (by rw [hf]; simp)]
  rw [p6loop_groups [65535] [] (some 0) 9 (colonC :: string4 (n % 4294967296)) (by simp)
    (by intro g hg; simp at hg; omega) (by simp) (by simp)
    (by
      intro c hc
      simp only [List.head?_cons, Option.some_inj] at hc
      subst hc
      exact ⟨by decide, by decide⟩)]
  simp only [List.nil_append]
  obtain ⟨d, dr, hs4h, hdig⟩ := string4_head (n % 4294967296)
  rw [hs4h]
  rw [afterGroups_colon_nc _ _ _ d dr (isDigitC_ne_colonC hdig)]
  rw [← hs4h]
  rw [p6loop_v4embed _ (n % 4294967296) (by omega) [65535] 0 (by norm_num) (by norm_num)]
  rw [p6finish_ell _ 0 (by norm_num)]
  simp only [List.take_zero, List.drop_zero, List.nil_append, Except.map]
  simp only [List.length_append, List.length_cons, List.length_nil, List.singleton_append]
  norm_num
  simp only [groupsToNat, List.foldl, List.replicate]
  omega

theorem parseIPv6_string6 (n : Nat) (h : n < 340282366920938463463374607431768211456) :
    parseIPv6 (string6 n) = .ok (.v6 n) := by
  rcases hbz : bestZeroRun (v6groups n) with _ | ⟨s, e⟩
  · have hstr6 : string6 n = joinG (v6groups n) := by
      simp only [string6, hbz]
    obtain ⟨c, r, hj, hhex⟩ := joinG_cons_head (n / 5192296858534827628530496329220096 % 65536)
      [n / 79228162514264337593543950336 % 65536, n / 1208925819614629174706176 % 65536,
       n / 18446744073709551616 % 65536, n / 281474976710656 % 65536,
       n / 4294967296 % 65536, n / 65536 % 65536, n % 65536]
    have hj2 : joinG (v6groups n) = c :: r := hj
    rw [hstr6, parseIPv6_no_leading_dcolon _ c r hj2 (isHexDigitC_ne_colonC hhex)]
    rw [← List.append_nil (joinG (v6groups n))]
    rw [p6loop_groups (v6groups n) [] none 9 [] (by simp [v6groups]) (v6groups_lt n)
      (by rw [v6groups_length]; simp) (by rw [v6groups_length]; norm_num)
      (by intro c2 hc2; simp at hc2)]
    rw [afterGroups_nil]
    simp only [List.nil_append]
    rw [p6finish_full _ (v6groups_length n)]
    simp only [Except.map]
    rw [groupsToNat_v6groups n h]
  · obtain ⟨hse2, he8, hz⟩ := bestZeroRun_prop (v6groups n) s e hbz
    rw [v6groups_length] at he8
    have hstr6 : string6 n = joinG ((v6groups n).take s) ++
        colonC :: colonC :: joinG ((v6groups n).drop e) := by
      simp only [string6, hbz]
    by_cases hs0 : s = 0
    · subst hs0
      rw [List.take_zero, joinG_nil, List.nil_append] at hstr6
      by_cases he8f : e = 8
      · subst he8f
        have hdrop : (v6groups n).drop 8 = [] := by
          rw [List.drop_eq_nil_iff, v6groups_length]
        rw [hdrop, joinG_nil] at hstr6
        rw [hstr6]
        have hz0 := hz 0 (by omega) (by omega)
        have hz1 := hz 1 (by omega) (by omega)
        have hz2 := hz 2 (by omega) (by omega)
        have hz3 := hz 3 (by omega) (by omega)
        have hz4 := hz 4 (by omega) (by omega)
        have hz5 := hz 5 (by omega) (by omega)
        have hz6 := hz 6 (by omega) (by omega)
        have hz7 := hz 7 (by omega) (by omega)
        simp only [v6groups, List.getD_cons_zero, List.getD_cons_succ] at hz0 hz1 hz2 hz3 hz4 hz5 hz6 hz7
        have hn0 : n = 0 := by omega
        subst hn0
        rfl
      · have he2 : 2 ≤ e := by omega
        have hdlen : ((v6groups n).drop e).length = 8 - e := by
          rw [List.length_drop, v6groups_length]
        have hdne : (v6groups n).drop e ≠ [] := by
          intro hcon
          rw [hcon] at hdlen
          simp at hdlen
          omega
        rw [hstr6]
        obtain ⟨g0, gr, hd⟩ := List.exists_cons_of_ne_nil hdne
        obtain ⟨c, r, hj, hhex⟩ := joinG_cons_head g0 gr
        rw [parseIPv6]
        rw [if_pos ⟨rfl, rfl⟩]
        rw [if_neg (by rw [hd, hj]; simp)]
        rw [← List.append_nil (joinG ((v6groups n).drop e))]
        rw [p6loop_groups ((v6groups n).drop e) [] (some 0) 9 []
          (by rw [hd]; simp)
          (fun g hg => v6groups_lt n g (List.drop_subset _ _ hg))
          (by rw [List.length_drop, v6groups_length]; simp)
          (by rw [List.length_drop, v6groups_length]; omega)
          (by intro c2 hc2; simp at hc2)]
        rw [afterGroups_nil]
        simp only [List.nil_append]
        rw [p6finish_ell _ 0 (by rw [hdlen]; omega)]
        simp only [List.take_zero, List.drop_zero, List.nil_append]
        rw [hdlen]
        have h88 : 8 - (8 - e) = e := by omega
        rw [h88]
        have hrec := take_replicate_drop (v6groups n) 0 e (by omega)
          (by rw [v6groups_length]; omega) (fun j hj1 hj2 => hz j (by omega) hj2)
        rw [List.take_zero, List.nil_append, Nat.sub_zero] at hrec
        rw [hrec]
        simp only [Except.map]
        rw [groupsToNat_v6groups n h]
    · have hs1 : 1 ≤ s := by omega
      have hplen : ((v6groups n).take s).length = s := by
        rw [List.length_take, v6groups_length]
        omega
      have hpne : (v6groups n).take s ≠ [] := by
        intro hcon
        rw [hcon] at hplen
        simp at hplen
        omega
      rw [hstr6]
      cases hp : (v6groups n).take s with
      | nil => exact absurd hp hpne
      | cons p0 pr =>
        obtain ⟨c, r, hj, hhex⟩ := joinG_cons_head p0 pr
        have hshape : joinG (p0 :: pr) ++ colonC :: colonC :: joinG ((v6groups n).drop e) =
            c :: (r ++ colonC :: colonC :: joinG ((v6groups n).drop e)) := by
          rw [hj]
          rfl
        rw [← hp]
        rw [parseIPv6_no_leading_dcolon _ c (r ++ colonC :: colonC :: joinG ((v6groups n).drop e))
          (by rw [hp]; exact hshape) (isHexDigitC_ne_colonC hhex)]
        rw [hp]
        rw [p6loop_groups (p0 :: pr) [] none 9
          (colonC :: colonC :: joinG ((v6groups n).drop e))
          (by simp)
          (fun g hg => v6groups_lt n g (List.take_subset _ _ (hp ▸ hg)))
          (by rw [← hp, hplen]; simp; omega)
          (by rw [← hp, hplen]; omega)
          (by
            intro c2 hc2
            simp only [List.head?_cons, Option.some_inj] at hc2
            subst hc2
            exact ⟨by decide, by decide⟩)]
        simp only [List.nil_append]
        rw [afterGroups_dcolon]
        by_cases he8f : e = 8
        · subst he8f
          have hdrop : (v6groups n).drop 8 = [] := by
            rw [List.drop_eq_nil_iff, v6groups_length]
          rw [hdrop, joinG_nil]
          rw [if_pos rfl]
          rw [p6finish_ell _ _ (by rw [← hp, hplen]; omega)]
          rw [List.take_length, List.drop_length]
          rw [← hp, hplen]
          have hrec := take_replicate_drop (v6groups n) s 8 (by omega)
            (by rw [v6groups_length]) (fun j hj1 hj2 => hz j hj1 (by omega))
          rw [List.append_assoc]
          rw [show List.replicate (8 - s) 0 ++ ([] : List Nat) =
            List.replicate (8 - s) 0 ++ (v6groups n).drop 8 by rw [hdrop]]
          rw [hrec]
          simp only [Except.map]
          rw [groupsToNat_v6groups n h]
        · have he2 : e < 8 := by omega
          have hdlen : ((v6groups n).drop e).length = 8 - e := by
            rw [List.length_drop, v6groups_length]
          have hdne : (v6groups n).drop e ≠ [] := by
            intro hcon
            rw [hcon] at hdlen
            simp at hdlen
            omega
          obtain ⟨g0, gr, hd⟩ := List.exists_cons_of_ne_nil hdne
          rw [if_neg (by rw [hd]; obtain ⟨c2, r2, hj2, _⟩ := joinG_cons_head g0 gr; rw [hj2]; simp)]
          rw [← List.append_nil (joinG ((v6groups n).drop e))]
          rw [p6loop_groups ((v6groups n).drop e) (p0 :: pr) (some (p0 :: pr).length)
            (9 - (p0 :: pr).length) []
            (by rw [hd]; simp)
            (fun g hg => v6groups_lt n g (List.drop_subset _ _ hg))
            (by
              have h1 : (p0 :: pr).length = s := by rw [← hp, hplen]
              rw [h1, List.length_drop, v6groups_length]
              omega)
            (by
              have h1 : (p0 :: pr).length = s := by rw [← hp, hplen]
              rw [h1, List.length_drop, v6groups_length]
              omega)
            (by intro c2 hc2; simp at hc2)]
          rw [afterGroups_nil]
          rw [p6finish_ell _ _ (by
            have h1 : (p0 :: pr).length = s := by rw [← hp, hplen]
            rw [List.length_append, h1, List.length_drop, v6groups_length]
            omega)]
          rw [List.take_left, List.drop_left]
          rw [List.length_append, ← hp, hplen, List.length_drop, v6groups_length]
          have hesub : 8 - (s + (8 - e)) = e - s := by omega
          rw [hesub]
          have hrec := take_replicate_drop (v6groups n) s e (by omega)
            (by rw [v6groups_length]; omega) hz
          rw [List.append_assoc]
          rw [hrec]
          simp only [Except.map]
          rw [groupsToNat_v6groups n h]

theorem parseIPv6_roundtrip (n : Nat) (h : n < 340282366920938463463374607431768211456) :
    parseIPv6 ((Addr.v6 n).toStr) = .ok (.v6 n) := by
  rw [Addr.toStr]
  by_cases h46 : n / 4294967296 = 65535
  · rw [if_pos h46]
    exact parseIPv6_4in6 n h h46
  · rw [if_neg h46]
    exact parseIPv6_string6 n h

theorem joinG_single (g : Nat) : joinG [g] = hexDigits g := rfl

theorem joinG_cons2 (a b : Nat) (l : List Nat) :
    joinG (a :: b :: l) = hexDigits a ++ colonC :: joinG (b :: l) := rfl

theorem not_special_of_hex (c : Char) (h : isHexDigitC c = true)
    (hc : c = dotC ∨ c = colonC ∨ c = percentC) : False := by
  rcases hc with hc | hc | hc <;> subst hc <;> exact absurd h (by decide)

theorem firstSpecial_hexes (hs r : Str) (hh : ∀ c ∈ hs, isHexDigitC c = true) :
    firstSpecial (hs ++ colonC :: r) = some colonC := by
  induction hs with
  | nil =>
    rw [List.nil_append, firstSpecial, if_pos (Or.inr (Or.inl rfl))]
  | cons c cs ih =>
    rw [List.cons_append, firstSpecial,
      if_neg (not_special_of_hex c (hh c (List.mem_cons_self c cs)))]
    exact ih (fun d hd => hh d (List.mem_cons_of_mem _ hd))

theorem firstSpecial_digits (ds r : Str) (hd : ∀ c ∈ ds, isDigitC c = true) :
    firstSpecial (ds ++ dotC :: r) = some dotC := by
  induction ds with
  | nil =>
    rw [List.nil_append, firstSpecial, if_pos (Or.inl rfl)]
  | cons c cs ih =>
    rw [List.cons_append, firstSpecial,
      if_neg (not_special_of_hex c (isHexDigitC_of_isDigitC (hd c (List.mem_cons_self c cs))))]
    exact ih (fun d hd2 => hd d (List.mem_cons_of_mem _ hd2))

theorem firstSpecial_joinG (g : Nat) (gs : List Nat) (hne : gs ≠ []) :
    firstSpecial (joinG (g :: gs)) = some colonC := by
  cases gs with
  | nil => exact absurd rfl hne
  | cons b l =>
    rw [joinG_cons2]
    exact firstSpecial_hexes _ _ (fun c hc => isHexDigitC_hexDigits hc)

theorem firstSpecial_joinG_append (gs : List Nat) (r : Str) :
    firstSpecial (joinG gs ++ colonC :: r) = some colonC := by
  match gs with
  | [] => rw [joinG_nil, List.nil_append, firstSpecial, if_pos (Or.inr (Or.inl rfl))]
  | [g] =>
    rw [joinG_single]
    exact firstSpecial_hexes _ _ (fun c hc => isHexDigitC_hexDigits hc)
  | g :: b :: l =>
    rw [joinG_cons2, List.append_assoc, List.cons_append]
    exact firstSpecial_hexes _ _ (fun c hc => isHexDigitC_hexDigits hc)

theorem firstSpecial_string4 (n : Nat) : firstSpecial (string4 n) = some dotC := by
  rw [string4]
  exact firstSpecial_digits _ _ (fun c hc => isDigitC_decDigits hc)

theorem firstSpecial_string6 (n : Nat) : firstSpecial (string6 n) = some colonC := by
  rcases hbz : bestZeroRun (v6groups n) with _ | ⟨s, e⟩
  · simp only [string6, hbz]
    exact firstSpecial_joinG _ _ (List.cons_ne_nil _ _)
  · simp only [string6, hbz]
    exact firstSpecial_joinG_append _ _

theorem firstSpecial_v6toStr (n : Nat) : firstSpecial ((Addr.v6 n).toStr) = some colonC := by
  rw [Addr.toStr]
  by_cases h46 : n / 4294967296 = 65535
  · rw [if_pos h46]
    rfl
  · rw [if_neg h46]
    exact firstSpecial_string6 n

theorem ParseAddr_string4 (n : Nat) (h : n < 4294967296) :
    ParseAddr (string4 n) = .ok (.v4 n) := by
  rw [ParseAddr, firstSpecial_string4]
  exact parseIPv4_string4 n h

theorem ParseAddr_v6toStr (n : Nat) (h : n < 340282366920938463463374607431768211456) :
    ParseAddr ((Addr.v6 n).toStr) = .ok (.v6 n) := by
  rw [ParseAddr, firstSpecial_v6toStr]
  exact parseIPv6_roundtrip n h

theorem foldl_decDigits (g : Nat) : ∀ acc : Nat,
    (decDigits g).foldl (fun a c => a * 10 + (c.toNat - 48)) acc =
      acc * 10 ^ (decDigits g).length + g := by
  induction g using Nat.strong_induction_on with
  | _ g ih =>
    intro acc
    by_cases h10 : g < 10
    · have hd : decDigits g = [Char.ofNat (48 + g)] := by rw [decDigits_eq, if_pos h10]
      rw [hd]
      have htn : (Char.ofNat (48 + g)).toNat = 48 + g := toNat_ofNat_48 g h10
      simp [htn]
    · have hd : decDigits g = decDigits (g / 10) ++ [Char.ofNat (48 + g % 10)] := by
        rw [decDigits_eq, if_neg h10]
      have hdiv : g / 10 < g := Nat.div_lt_self (by omega) (by norm_num)
      rw [hd, List.foldl_append]
      rw [ih (g / 10) hdiv acc]
      simp only [List.foldl_cons, List.foldl_nil, List.length_append, List.length_cons,
        List.length_nil]
      have hm : g % 10 < 10 := Nat.mod_lt _ (by norm_num)
      have htn : (Char.ofNat (48 + g % 10)).toNat = 48 + g % 10 := toNat_ofNat_48 _ hm
      rw [htn]
      have hpow : 10 ^ ((decDigits (g / 10)).length + (0 + 1)) =
          10 ^ (decDigits (g / 10)).length * 10 := by
        rw [Nat.add_comm 0 1, pow_succ]
      rw [hpow]
      have h1 : (acc * 10 ^ (decDigits (g / 10)).length + g / 10) * 10 =
          acc * (10 ^ (decDigits (g / 10)).length * 10) + g / 10 * 10 := by ring
      rw [h1]
      have := Nat.div_add_mod g 10
      omega

theorem digitsVal_decDigits (g : Nat) : digitsVal (decDigits g) = g := by
  rw [digitsVal, foldl_decDigits]
  simp

theorem allDigits_decDigits (g : Nat) : allDigits (decDigits g) = true := by
  rw [allDigits, List.all_eq_true]
  intro c hc
  exact isDigitC_decDigits hc

theorem goAtoi_all_digits (s : Str) (hne : s ≠ []) (hd : allDigits s = true) :
    goAtoi s = .ok (digitsVal s) := by
  match s, hne with
  | c :: rest, _ =>
    have hc : isDigitC c = true := by
      simp only [allDigits, List.all_cons, Bool.and_eq_true] at hd
      exact hd.1
    have hc43 : ¬(c = Char.ofNat 43) := by
      intro hcon
      subst hcon
      exact absurd hc (by decide)
    have hc45 : ¬(c = Char.ofNat 45) := by
      intro hcon
      subst hcon
      exact absurd hc (by decide)
    rw [goAtoi, if_neg hc43, if_neg hc45, if_pos hd]

theorem takeWhile_all_stop (p : Char → Bool) (l : Str) (a : Char) (r : Str)
    (hl : ∀ c ∈ l, p c = true) (ha : p a = false) :
    (l ++ a :: r).takeWhile p = l := by
  induction l with
  | nil =>
    rw [List.nil_append, List.takeWhile_cons, ha]
    simp
  | cons x xs ih =>
    rw [List.cons_append, List.takeWhile_cons, hl x (List.mem_cons_self x xs)]
    simp only [if_true]
    rw [ih (fun c hc => hl c (List.mem_cons_of_mem _ hc))]

theorem lastSlashSplit_append (x y : Str) (hy : ∀ c ∈ y, c ≠ slashC) :
    lastSlashSplit (x ++ slashC :: y) = some (x, y) := by
  have hrev : (x ++ slashC :: y).reverse = y.reverse ++ slashC :: x.reverse := by
    rw [List.reverse_append, List.reverse_cons, List.append_assoc, List.singleton_append]
  have htw : ((x ++ slashC :: y).reverse.takeWhile fun c => c ≠ slashC) = y.reverse := by
    rw [hrev]
    refine takeWhile_all_stop _ _ _ _ (fun c hc => ?_) (by simp)
    have := hy c (List.mem_reverse.mp hc)
    simp [this]
  rw [lastSlashSplit]
  simp only [htw, List.reverse_reverse]
  rw [if_neg (by
    simp only [List.length_append, List.length_cons]
    omega)]
  have hlen : (x ++ slashC :: y).length - y.length - 1 = x.length := by
    simp only [List.length_append, List.length_cons]
    omega
  rw [hlen]
  rw [List.take_left]

theorem ParsePrefix_toStr (p : Pfx) (hv : p.validB = true) :
    ParsePrefix (Pfx.toStr p) = .ok p := by
  obtain ⟨addr, bp1⟩ := p
  simp only [Pfx.validB, Bool.and_eq_true, decide_eq_true_eq] at hv
  obtain ⟨⟨hval, hbp0⟩, hble⟩ := hv
  have hts : Pfx.toStr ⟨addr, bp1⟩ = Addr.toStr addr ++ slashC :: decDigits (bp1 - 1) := by
    rw [Pfx.toStr, if_neg hbp0]
  have hnos : ∀ c ∈ decDigits (bp1 - 1), c ≠ slashC := by
    intro c hc hcon
    subst hcon
    exact absurd (mem_decDigits _ _ hc) (by decide)
  have hsplit := lastSlashSplit_append (Addr.toStr addr) (decDigits (bp1 - 1)) hnos
  have hatoi := goAtoi_all_digits (decDigits (bp1 - 1)) (decDigits_ne_nil _) (allDigits_decDigits _)
  rw [digitsVal_decDigits] at hatoi
  cases addr with
  | invalid => simp at hval
  | v4 n =>
    have hble32 : bp1 ≤ 33 := by
      have : Addr.BitLen (Addr.v4 n) = 32 := rfl
      omega
    have hn : n < 4294967296 := by simpa using hval
    have hpa : ParseAddr (Addr.toStr (.v4 n)) = .ok (.v4 n) := ParseAddr_string4 n hn
    rw [hts, ParsePrefix]
    simp only [hsplit, hpa, hatoi]
    rw [if_neg (by omega)]
    rw [PrefixFrom, if_pos ⟨fun hcon => Addr.noConfusion hcon, by omega,
      by rw [show Addr.BitLen (Addr.v4 n) = 32 from rfl]; omega⟩]
    simp only [Int.toNat_natCast]
    have hb1 : bp1 - 1 + 1 = bp1 := by omega
    rw [hb1]
  | v6 n =>
    have hble128 : bp1 ≤ 129 := by
      have : Addr.BitLen (Addr.v6 n) = 128 := rfl
      omega
    have hn : n < 340282366920938463463374607431768211456 := by simpa using hval
    have hpa : ParseAddr (Addr.toStr (.v6 n)) = .ok (.v6 n) := ParseAddr_v6toStr n hn
    rw [hts, ParsePrefix]
    simp only [hsplit, hpa, hatoi]
    rw [if_neg (by omega)]
    rw [PrefixFrom, if_pos ⟨fun hcon => Addr.noConfusion hcon, by omega,
      by rw [show Addr.BitLen (Addr.v6 n) = 128 from rfl]; omega⟩]
    simp only [Int.toNat_natCast]
    have hb1 : bp1 - 1 + 1 = bp1 := by omega
    rw [hb1]

theorem no_slash_string4 (n : Nat) : ∀ c ∈ string4 n, c ≠ slashC := by
  intro c hc hcon
  subst hcon
  rw [string4] at hc
  simp only [List.mem_append, List.mem_cons] at hc
  rcases hc with h | h | h | h | h | h | h <;>
    first
      | exact absurd (mem_decDigits _ _ h) (by decide)
      | exact absurd h (by decide)

theorem no_slash_joinG (gs : List Nat) : ∀ c ∈ joinG gs, c ≠ slashC := by
  induction gs with
  | nil =>
    intro c hc
    rw [joinG_nil] at hc
    exact absurd hc (List.not_mem_nil c)
  | cons g gs ih =>
    cases gs with
    | nil =>
      intro c hc hcon
      subst hcon
      rw [joinG_single] at hc
      exact absurd (mem_hexDigits _ _ hc) (by decide)
    | cons b l =>
      intro c hc hcon
      subst hcon
      rw [joinG_cons2] at hc
      simp only [List.mem_append, List.mem_cons] at hc
      rcases hc with h | h | h
      · exact absurd (mem_hexDigits _ _ h) (by decide)
      · exact absurd h (by decide)
      · exact ih _ h rfl

theorem no_slash_string6 (n : Nat) : ∀ c ∈ string6 n, c ≠ slashC := by
  intro c hc
  rcases hbz : bestZeroRun (v6groups n) with _ | ⟨s, e⟩ <;> simp only [string6, hbz] at hc
  · exact no_slash_joinG _ c hc
  · simp only [List.mem_append, List.mem_cons] at hc
    rcases hc with h | h | h | h
    · exact no_slash_joinG _ c h
    · intro hcon; subst h; exact absurd hcon (by decide)
    · intro hcon; subst h; exact absurd hcon (by decide)
    · exact no_slash_joinG _ c h

theorem no_slash_toStr (a : Addr) : ∀ c ∈ Addr.toStr a, c ≠ slashC := by
  cases a with
  | invalid =>
    intro c hc hcon
    subst hcon
    revert hc
    decide
  | v4 n => exact no_slash_string4 n
  | v6 n =>
    intro c hc hcon
    subst hcon
    rw [Addr.toStr] at hc
    by_cases h46 : n / 4294967296 = 65535
    · rw [if_pos h46] at hc
      simp only [List.mem_append] at hc
      rcases hc with h | h
      · exact absurd h (by decide)
      · exact no_slash_string4 _ _ h rfl
    · rw [if_neg h46] at hc
      exact no_slash_string6 _ _ hc rfl

theorem no_slash_decDigits (b : Nat) : ∀ c ∈ decDigits b, c ≠ slashC := by
  intro c hc hcon
  subst hcon
  exact absurd (mem_decDigits _ _ hc) (by decide)

theorem goSplit_ne_nil (sep : Char) (s : Str) : goSplit sep s ≠ [] := by
  cases s with
  | nil => simp [goSplit]
  | cons c cs =>
    rw [goSplit]
    cases hg : goSplit sep cs with
    | nil => simp
    | cons g gs => by_cases hc : c = sep <;> simp [hc]

theorem goSplit_no_sep (sep : Char) (s : Str) (h : ∀ c ∈ s, c ≠ sep) :
    goSplit sep s = [s] := by
  induction s with
  | nil => rfl
  | cons c cs ih =>
    rw [goSplit, ih (fun d hd => h d (List.mem_cons_of_mem _ hd))]
    show (if c = sep then [] :: cs :: [] else (c :: cs) :: ([] : List Str)) = [c :: cs]
    rw [if_neg (h c (List.mem_cons_self c cs))]

theorem goSplit_cons_sep (sep : Char) (x y : Str) (hx : ∀ c ∈ x, c ≠ sep) :
    goSplit sep (x ++ sep :: y) = x :: goSplit sep y := by
  induction x with
  | nil =>
    rw [List.nil_append, goSplit]
    obtain ⟨g, gs, hg⟩ := List.exists_cons_of_ne_nil (goSplit_ne_nil sep y)
    rw [hg]
    show (if sep = sep then [] :: g :: gs else (sep :: g) :: gs) = [] :: g :: gs
    rw [if_pos rfl]
  | cons c cs ih =>
    rw [List.cons_append, goSplit, ih (fun d hd => hx d (List.mem_cons_of_mem _ hd))]
    show (if c = sep then [] :: cs :: goSplit sep y else (c :: cs) :: goSplit sep y) =
      (c :: cs) :: goSplit sep y
    rw [if_neg (hx c (List.mem_cons_self c cs))]

theorem toStr_split_of_valid (q : Pfx) (hq : q.validB = true) :
    Pfx.toStr q = Addr.toStr q.addr ++ slashC :: decDigits (q.bitsPlusOne - 1) := by
  simp only [Pfx.validB, Bool.and_eq_true, decide_eq_true_eq] at hq
  rw [Pfx.toStr, if_neg hq.1.2]

theorem getD3_1 (a b c : Str) : ([a, b, c] : List Str).getD 1 [] = b := rfl

theorem getD3_2 (a b c : Str) : ([a, b, c] : List Str).getD 2 [] = c := rfl

theorem getD5_1 (a b c d e : Str) : ([a, b, c, d, e] : List Str).getD 1 [] = b := rfl

theorem getD5_2 (a b c d e : Str) : ([a, b, c, d, e] : List Str).getD 2 [] = c := rfl

theorem getD5_3 (a b c d e : Str) : ([a, b, c, d, e] : List Str).getD 3 [] = d := rfl

theorem getD5_4 (a b c d e : Str) : ([a, b, c, d, e] : List Str).getD 4 [] = e := rfl

/-- C4: For every valid PoolID p — an address-space name containing no '/'
character, a valid Subnet prefix, and a ChildSubnet that is either the
zero-value prefix (meaning absent) or a valid prefix — PoolIDFromString of
p.String() succeeds and returns a PoolID equal to p; and String() produces
space/subnet when no child subnet is set and space/subnet/child otherwise. -/
theorem claim_C4_poolid_roundtrip (p : PoolID)
    (hs : ∀ c ∈ p.AddressSpace, c ≠ slashC)
    (hsub : p.Subnet.validB = true)
    (hch : p.ChildSubnet = Pfx.zeroP ∨ p.ChildSubnet.validB = true) :
    PoolIDFromString (PoolID.String p) = .ok p ∧
    (p.ChildSubnet = Pfx.zeroP →
      PoolID.String p = p.AddressSpace ++ slashC :: Pfx.toStr p.Subnet) ∧
    (p.ChildSubnet ≠ Pfx.zeroP →
      PoolID.String p =
        p.AddressSpace ++ slashC :: (Pfx.toStr p.Subnet ++ slashC :: Pfx.toStr p.ChildSubnet)) := by
  obtain ⟨sp, sub, ch⟩ := p
  simp only at hs hsub hch
  have htsS := toStr_split_of_valid sub hsub
  by_cases hzero : ch = Pfx.zeroP
  · subst hzero
    have hstr : PoolID.String ⟨sp, sub, Pfx.zeroP⟩ = sp ++ slashC :: Pfx.toStr sub := by
      rw [PoolID.String, if_pos rfl]
    refine ⟨?_, fun _ => hstr, fun hcon => absurd rfl hcon⟩
    rw [hstr]
    have hne : sp ++ slashC :: Pfx.toStr sub ≠ [] := by simp
    rw [PoolIDFromString, if_neg hne]
    have hsplit : goSplit slashC (sp ++ slashC :: Pfx.toStr sub) =
        [sp, Addr.toStr sub.addr, decDigits (sub.bitsPlusOne - 1)] := by
      rw [goSplit_cons_sep _ _ _ hs, htsS,
        goSplit_cons_sep _ _ _ (no_slash_toStr sub.addr),
        goSplit_no_sep _ _ (no_slash_decDigits _)]
    simp only [hsplit]
    rw [if_neg (by simp)]
    have hgd1 : ([sp, Addr.toStr sub.addr, decDigits (sub.bitsPlusOne - 1)] : List Str).getD 1 []
        ++ slashC ::
        ([sp, Addr.toStr sub.addr, decDigits (sub.bitsPlusOne - 1)] : List Str).getD 2 [] =
        Pfx.toStr sub := by
      rw [getD3_1, getD3_2, htsS]
    simp only [hgd1, ParsePrefix_toStr sub hsub]
    rw [if_neg (by simp)]
    rfl
  · have hchv : ch.validB = true := hch.resolve_left hzero
    have htsC := toStr_split_of_valid ch hchv
    have hstr : PoolID.String ⟨sp, sub, ch⟩ =
        sp ++ slashC :: (Pfx.toStr sub ++ slashC :: Pfx.toStr ch) := by
      rw [PoolID.String, if_neg hzero, List.append_assoc, List.cons_append]
    refine ⟨?_, fun hcon => absurd hcon hzero, fun _ => hstr⟩
    rw [hstr]
    have hne : sp ++ slashC :: (Pfx.toStr sub ++ slashC :: Pfx.toStr ch) ≠ [] := by simp
    rw [PoolIDFromString, if_neg hne]
    have hsplit : goSplit slashC (sp ++ slashC :: (Pfx.toStr sub ++ slashC :: Pfx.toStr ch)) =
        [sp, Addr.toStr sub.addr, decDigits (sub.bitsPlusOne - 1),
         Addr.toStr ch.addr, decDigits (ch.bitsPlusOne - 1)] := by
      rw [goSplit_cons_sep _ _ _ hs, htsS, List.append_assoc, List.cons_append,
        goSplit_cons_sep _ _ _ (no_slash_toStr sub.addr),
        goSplit_cons_sep _ _ _ (no_slash_decDigits _),
        htsC,
        goSplit_cons_sep _ _ _ (no_slash_toStr ch.addr),
        goSplit_no_sep _ _ (no_slash_decDigits _)]
    simp only [hsplit]
    rw [if_neg (by simp)]
    have hgd1 : ([sp, Addr.toStr sub.addr, decDigits (sub.bitsPlusOne - 1),
         Addr.toStr ch.addr, decDigits (ch.bitsPlusOne - 1)] : List Str).getD 1 []
        ++ slashC ::
        ([sp, Addr.toStr sub.addr, decDigits (sub.bitsPlusOne - 1),
         Addr.toStr ch.addr, decDigits (ch.bitsPlusOne - 1)] : List Str).getD 2 [] =
        Pfx.toStr sub := by
      rw [getD5_1, getD5_2, htsS]
    simp only [hgd1, ParsePrefix_toStr sub hsub]
    rw [if_pos (by simp)]
    have hgd2 : ([sp, Addr.toStr sub.addr, decDigits (sub.bitsPlusOne - 1),
         Addr.toStr ch.addr, decDigits (ch.bitsPlusOne - 1)] : List Str).getD 3 []
        ++ slashC ::
        ([sp, Addr.toStr sub.addr, decDigits (sub.bitsPlusOne - 1),
         Addr.toStr ch.addr, decDigits (ch.bitsPlusOne - 1)] : List Str).getD 4 [] =
        Pfx.toStr ch := by
      rw [getD5_3, getD5_4, htsC]
    simp only [hgd2, ParsePrefix_toStr ch hchv]
    rfl

theorem claim_C4_witness :
    PoolIDFromString (PoolID.String ⟨("as").toList, ⟨.v4 167772160, 25⟩, Pfx.zeroP⟩) =
      .ok ⟨("as").toList, ⟨.v4 167772160, 25⟩, Pfx.zeroP⟩ ∧
    PoolIDFromString (PoolID.String ⟨("as").toList, ⟨.v4 167772160, 25⟩, ⟨.v4 167772160, 26⟩⟩) =
      .ok ⟨("as").toList, ⟨.v4 167772160, 25⟩, ⟨.v4 167772160, 26⟩⟩ :=
  ⟨(claim_C4_poolid_roundtrip ⟨("as").toList, ⟨.v4 167772160, 25⟩, Pfx.zeroP⟩
      (by decide) (by decide) (Or.inl rfl)).1,
   (claim_C4_poolid_roundtrip ⟨("as").toList, ⟨.v4 167772160, 25⟩, ⟨.v4 167772160, 26⟩⟩
      (by decide) (by decide) (Or.inr (by decide))).1⟩
